import Mathlib

/-!
Shallow embedding of the `gotimerwheel` hierarchical timer wheel
(`gotimerwheel.go`) and proofs about it.

Modelling conventions:
* `time.Time` and `time.Duration` are modelled as `Nat` (nanoseconds).  All
  reachable states keep every stored time at or after the wheel's `start`, so
  the `Nat` subtraction `at - start` agrees with Go's `time.Time.Sub`.
* A callback `Event` is opaque in the source; it is modelled by a numeric
  identity `id`.  Invoking a callback is modelled by appending its record to
  the fired-trace that `AdvanceTo` returns, in invocation order.
* The `next *TimerWheel` pointer chain is modelled as a `List Level`: the head
  of the list is the receiver level, `next == nil` is the empty tail.
* `AdvanceTo`'s outer `for` loop is modelled with an explicit iteration budget
  (`fuel`).  Each loop iteration that `continue`s strictly increases
  `start + ringIdx * bucketSize` by `bucketSize ≥ 1`, and such an iteration
  requires `target ≥ start + ringIdx * bucketSize`, so `target + 1` iterations
  always suffice (proved below via `advanceLoop_spec`); the `fuel = 0` branch
  is unreachable on states with a positive bucket size.
* The Go loop caches `bucketStart` in a local variable; across iterations the
  cache always equals `start + ringIdx * bucketSize` (the cascade adds one
  full ring span to `start` exactly when `ringIdx` wraps from 32 to 0), so the
  model recomputes it from the fields.
-/

namespace GoTimerWheel

/-- Number of buckets per level (`ringLength = 32` in the source). -/
def ringLength : Nat := 32

/-- One scheduled callback record: its due time and the opaque callback
identity (`eventNode.due` and `eventNode.fun` in the source; the `next`
pointer of the Go struct is the tail of the containing `Bucket` list). -/
structure EventNode where
  due : Nat
  id : Nat
deriving DecidableEq, Repr

/-- A bucket is the singly linked list hanging off one ring slot
(`eventNodeContainer` chain), head first. -/
abbrev Bucket := List EventNode

/-- One level of the wheel: the fields of Go's `TimerWheel` struct except the
`next` pointer, which is represented by the tail of the containing chain. -/
structure Level where
  ring : List Bucket
  ringIdx : Nat
  now : Nat
  start : Nat
  bucketSize : Nat
deriving DecidableEq, Repr

/-- A timer wheel: the chain of levels reached by following `next` pointers,
finest granularity first.  `next == nil` at the last element. -/
abbrev Wheel := List Level

/-- The `ScheduledInPast` error value. -/
inductive WheelError where
  | ScheduledInPast
deriving DecidableEq, Repr

/-- Go `NewTimerWheel` (the `bucketSize > 0` precondition is enforced by a
panic in Go; reachable states below always have a positive bucket size). -/
def NewTimerWheel (startAt bucketSize : Nat) : Wheel :=
  [⟨List.replicate ringLength [], 0, startAt, startAt, bucketSize⟩]

/-- Go `Now`. -/
def Now : Wheel → Nat
  | [] => 0
  | l :: _ => l.now

/-- Go `Length`: events in buckets from the active index on, plus the next
levels (`tw == nil` receiver returns 0, matching the empty chain). -/
def Length : Wheel → Nat
  | [] => 0
  | l :: rest => ((l.ring.drop l.ringIdx).map List.length).sum + Length rest

/-- Go `IsEmpty`: false as soon as a `next` level is attached, otherwise scans
the buckets from the active index on. -/
def IsEmpty : Wheel → Bool
  | [] => true
  | l :: rest => rest.isEmpty && (l.ring.drop l.ringIdx).all List.isEmpty

/-- Go `eventNodeContainer.addEvent`: sorted insertion, placing the new record
before the first existing record whose due time is not smaller. -/
def bucketAdd (e : EventNode) : Bucket → Bucket
  | [] => [e]
  | x :: xs => if e.due ≤ x.due then e :: x :: xs else x :: bucketAdd e xs

/-- A freshly constructed level, as made by `NewTimerWheel` inside
`ensureNext`. -/
def freshLevel (s bs : Nat) : Level :=
  ⟨List.replicate ringLength [], 0, s, s, bs⟩

/-- The chain of fresh levels that `ensureNext` followed by the internal
`scheduleEventAt` builds when an event overflows past every existing level:
each new level spans 32 times the previous bucket size, and the event is
prepended (into an empty bucket) at the first level able to hold it. -/
def freshChain (s bs at_ id : Nat) : Wheel :=
  if h : ringLength ≤ (at_ - s) / bs then
    freshLevel s bs :: freshChain (s + ringLength * bs) (ringLength * bs) at_ id
  else
    [{ freshLevel s bs with ring := (List.replicate ringLength []).set ((at_ - s) / bs) [⟨at_, id⟩] }]
termination_by at_ - s
decreasing_by
  have hbs : 0 < bs := by
    by_contra hb
    have hz : bs = 0 := Nat.eq_zero_of_not_pos hb
    simp [hz, ringLength] at h
  have h32 : ringLength * bs ≤ at_ - s := Nat.le_div_iff_mul_le hbs |>.mp (by
    simpa [Nat.mul_comm] using h)
  have hpos : 0 < ringLength * bs := Nat.mul_pos (by decide) hbs
  omega

/-- Go's internal (lower-case) `scheduleEventAt` on the `next` chain: O(1)
unsorted prepend at the level whose span holds the due time, recursing and
lazily creating levels (`ensureNext`) otherwise. -/
def scheduleEventAt : Wheel → Nat → Nat → Wheel
  | [], _, _ => []
  | l :: rest, at_, id =>
    let idx := (at_ - l.start) / l.bucketSize
    if ringLength ≤ idx then
      match rest with
      | [] => l :: freshChain (l.start + ringLength * l.bucketSize) (ringLength * l.bucketSize) at_ id
      | _ :: _ => l :: scheduleEventAt rest at_ id
    else
      { l with ring := l.ring.set idx (⟨at_, id⟩ :: l.ring.getD idx []) } :: rest

/-- Go `ScheduleEventAt` (public): rejects past times, sorted insertion at the
root level, delegation to the `next` chain on overflow.  The scheduled
callback is never invoked by this call (the model returns no fired trace). -/
def ScheduleEventAt : Wheel → Nat → Nat → Except WheelError Wheel
  | [], _, _ => .error .ScheduledInPast
  | l :: rest, at_, id =>
    if at_ < l.now then .error .ScheduledInPast
    else
      let idx := (at_ - l.start) / l.bucketSize
      .ok (if ringLength ≤ idx then
        l :: (match rest with
          | [] => freshChain (l.start + ringLength * l.bucketSize) (ringLength * l.bucketSize) at_ id
          | _ :: _ => scheduleEventAt rest at_ id)
      else
        { l with ring := l.ring.set idx (bucketAdd ⟨at_, id⟩ (l.ring.getD idx [])) } :: rest)

/-- Go `TimerWheel.addEvent`: clears the record's link and performs the sorted
insertion into the bucket selected by the level's (already shifted) origin.
The ring access is unchecked in Go; on reachable states the index is within
the ring (theorem `C8_cascade_index_in_bounds`). -/
def addEventRing (s bs : Nat) (r : List Bucket) (e : EventNode) : List Bucket :=
  let idx := (e.due - s) / bs
  r.set idx (bucketAdd e (r.getD idx []))

/-- Go `fetchFromNext` on a level `l` whose ring has wrapped, with `rest` the
chain hanging off its `next` pointer: resets the active index, shifts the
origin by a full ring span, pulls the entire active bucket of the next level
down (sorted reinsertion), advances the next level's index and clock, drops
the next level if it is provably empty, and cascades recursively if the next
level's own ring has wrapped. -/
def fetchFromNext : Level → Wheel → Level × Wheel
  | l, [] => ({ l with ringIdx := 0, start := l.start + ringLength * l.bucketSize }, [])
  | l, n :: rest2 =>
    let start2 := l.start + ringLength * l.bucketSize
    let evs := n.ring.getD n.ringIdx []
    let ring2 := evs.foldl (addEventRing start2 l.bucketSize) l.ring
    let l2 : Level := { l with ring := ring2, ringIdx := 0, start := start2 }
    let n2 : Level := { n with ring := n.ring.set n.ringIdx [], ringIdx := n.ringIdx + 1,
                               now := n.now + n.bucketSize }
    if IsEmpty (n2 :: rest2) then (l2, [])
    else if n2.ringIdx == ringLength then
      let p := fetchFromNext n2 rest2
      (l2, p.1 :: p.2)
    else (l2, n2 :: rest2)

/-- The inner loop of `AdvanceTo`: pops and invokes, head first, every record
of the bucket whose due time is not after the target, stopping early when the
limit is reached.  Returns the fired records in order, the remaining bucket,
and the updated invocation count. -/
def popDue (target : Nat) (limited : Bool) (limitN : Nat) :
    Bucket → Nat → List EventNode × Bucket × Nat
  | [], ec => ([], [], ec)
  | e :: es, ec =>
    if e.due ≤ target then
      if limited && limitN == ec then ([], e :: es, ec)
      else
        let p := popDue target limited limitN es (ec + 1)
        (e :: p.1, p.2.1, p.2.2)
    else ([], e :: es, ec)

/-- The outer loop of `AdvanceTo` (see the fuel convention in the file
header).  Returns the updated root level, the updated next chain, the
invocation count and the fired records in invocation order. -/
def advanceLoop (target : Nat) (limited : Bool) (limitN : Nat) :
    Nat → Level → Wheel → Nat → Level × Wheel × Nat × List EventNode
  | 0, l, rest, ec => (l, rest, ec, [])
  | fuel + 1, l, rest, ec =>
    if target < l.now then (l, rest, ec, [])
    else
      let bucket := l.ring.getD l.ringIdx []
      let pd := popDue target limited limitN bucket ec
      let fired := pd.1
      let remaining := pd.2.1
      let ec2 := pd.2.2
      let ring2 := l.ring.set l.ringIdx remaining
      match remaining with
      | [] =>
        let bucketStart := l.start + (l.ringIdx + 1) * l.bucketSize
        if target < bucketStart then
          ({ l with ring := ring2 }, rest, ec2, fired)
        else
          let l2 : Level := { l with ring := ring2, ringIdx := l.ringIdx + 1, now := bucketStart }
          let st := if l2.ringIdx == ringLength then fetchFromNext l2 rest else (l2, rest)
          let r := advanceLoop target limited limitN fuel st.1 st.2 ec2
          (r.1, r.2.1, r.2.2.1, fired ++ r.2.2.2)
      | e :: _ =>
        if limited && limitN == ec2 then
          ({ l with ring := ring2, now := e.due }, rest, ec2, fired)
        else
          ({ l with ring := ring2 }, rest, ec2, fired)

/-- Go `AdvanceTo`: a target before the current clock is a no-op returning 0;
otherwise the loop runs and the clock is set to the target unconditionally on
return.  `limit > 0` caps the number of invocations; `limit ≤ 0` (Go's signed
`int`) means unlimited.  The third component is the fired trace. -/
def AdvanceTo : Wheel → Nat → Int → Wheel × Nat × List EventNode
  | [], _, _ => ([], 0, [])
  | l :: rest, target, limit =>
    if target < l.now then (l :: rest, 0, [])
    else
      let r := advanceLoop target (decide (0 < limit)) limit.toNat (target + 1) l rest 0
      ({ r.1 with now := target } :: r.2.1, r.2.2.1, r.2.2.2)

/-- All pending records of the wheel, every bucket of every level. -/
def allEvents : Wheel → List EventNode
  | [] => []
  | l :: rest => l.ring.flatten ++ allEvents rest

/-- The pending records due at or before `target`. -/
def dueList (c : Wheel) (target : Nat) : List EventNode :=
  (allEvents c).filter (fun e => decide (e.due ≤ target))

/-! ## Reachability invariant -/

/-- Structural well-formedness of one level: full-size ring, active index in
range, positive bucket size, every record within its bucket's time window,
buckets before the active index empty, and the clock at or after the active
bucket's start. -/
def LevelWF (l : Level) : Prop :=
  l.ring.length = ringLength ∧ l.ringIdx < ringLength ∧ 0 < l.bucketSize ∧
  (∀ i < ringLength, ∀ e ∈ l.ring.getD i [],
    l.start + i * l.bucketSize ≤ e.due ∧ e.due < l.start + (i + 1) * l.bucketSize) ∧
  (∀ i < l.ringIdx, l.ring.getD i [] = []) ∧
  l.start + l.ringIdx * l.bucketSize ≤ l.now

/-- The relation between a level and its `next` level: the coarser level's
bucket span is one full ring span of the finer level, and the coarser level's
active bucket starts exactly at the finer level's horizon. -/
def linked (l n : Level) : Prop :=
  n.bucketSize = ringLength * l.bucketSize ∧
  n.start + n.ringIdx * n.bucketSize = l.start + ringLength * l.bucketSize

/-- Invariant of a level chain: each level well formed, consecutive levels
linked, and every attached `next` subchain nonempty (cascading releases an
exhausted next level, so a live `next` pointer implies pending events). -/
def ChainInv : Wheel → Prop
  | [] => True
  | [l] => LevelWF l
  | l :: n :: rest =>
    LevelWF l ∧ linked l n ∧ allEvents (n :: rest) ≠ [] ∧ ChainInv (n :: rest)

/-- Every bucket of the level is sorted ascending by due time.  Maintained at
the root level only (deeper levels use unsorted O(1) prepends). -/
def RingSorted (l : Level) : Prop :=
  ∀ i < ringLength, (l.ring.getD i []).Pairwise (fun a b => a.due ≤ b.due)

/-- The full invariant of a reachable wheel. -/
def Inv : Wheel → Prop
  | [] => False
  | l :: rest => RingSorted l ∧ ChainInv (l :: rest)

/-- States reachable through the public constructor and operations (with the
positive bucket size required by the `NewTimerWheel` panic). -/
inductive Reachable : Wheel → Prop
  | new (startAt bs : Nat) (h : 0 < bs) : Reachable (NewTimerWheel startAt bs)
  | sched {c c' : Wheel} (at_ id : Nat) (hc : Reachable c)
      (hok : ScheduleEventAt c at_ id = .ok c') : Reachable c'
  | adv {c : Wheel} (target : Nat) (limit : Int) (hc : Reachable c) :
      Reachable (AdvanceTo c target limit).1

/-- The contract of one run of the `AdvanceTo` outer loop, for the loop state
`(l, rest)` with `ec` events already fired: the returned count accounting,
which events fire (due before the target, in ascending order, all below
whatever stays pending, all of them unless the limit cuts in), and the wheel
invariant of the final state once the clock is set to the target. -/
def LoopPost (target : Nat) (limited : Bool) (limitN : Nat) (l : Level) (rest : Wheel)
    (ec : Nat) (out : Level × Wheel × Nat × List EventNode) : Prop :=
  out.2.2.1 = ec + out.2.2.2.length ∧
  (∀ e ∈ out.2.2.2, e.due ≤ target) ∧
  out.2.2.2.Pairwise (fun a b => a.due ≤ b.due) ∧
  (allEvents (l :: rest)).Perm (out.2.2.2 ++ allEvents (out.1 :: out.2.1)) ∧
  (∀ f ∈ out.2.2.2, ∀ p ∈ allEvents (out.1 :: out.2.1), f.due ≤ p.due) ∧
  (limited = true → out.2.2.1 ≤ limitN) ∧
  ((limited = false ∨ out.2.2.1 < limitN) →
    ∀ p ∈ allEvents (out.1 :: out.2.1), target < p.due) ∧
  out.1.bucketSize = l.bucketSize ∧
  RingSorted out.1 ∧
  ChainInv ({ out.1 with now := target } :: out.2.1)

/-- One public mutating operation of the wheel. -/
inductive Op where
  | sched (at_ id : Nat)
  | adv (target : Nat) (limit : Int)

/-- Application of one operation: the new state and the callbacks the
operation invoked, in invocation order.  A rejected `ScheduleEventAt` leaves
the state untouched, as the Go method returns before any mutation. -/
def applyOp (c : Wheel) : Op → Wheel × List EventNode
  | .sched at_ id =>
    match ScheduleEventAt c at_ id with
    | .ok c' => (c', [])
    | .error _ => (c, [])
  | .adv target limit => ((AdvanceTo c target limit).1, (AdvanceTo c target limit).2.2)

/-- Running a sequence of operations, accumulating the full invocation
trace. -/
def runOps (c : Wheel) : List Op → Wheel × List EventNode
  | [] => (c, [])
  | op :: ops =>
    ((runOps (applyOp c op).1 ops).1,
     (applyOp c op).2 ++ (runOps (applyOp c op).1 ops).2)

/-- Repeatedly calling `AdvanceTo` with a fixed target and limit,
accumulating the invocation trace. -/
def iterAdvanceTo (target : Nat) (limit : Int) : Nat → Wheel → Wheel × List EventNode
  | 0, c => (c, [])
  | k + 1, c =>
    ((iterAdvanceTo target limit k (AdvanceTo c target limit).1).1,
     (AdvanceTo c target limit).2.2 ++
       (iterAdvanceTo target limit k (AdvanceTo c target limit).1).2)

/-- Concrete state: a wheel created at time 0 with bucket size 1, with one
callback scheduled at time 0. -/
def c3mid : Wheel :=
  match ScheduleEventAt (NewTimerWheel 0 1) 0 0 with
  | .ok c => c
  | .error _ => []

/-- Concrete state used by several witnesses and by the C3 counterexample:
callbacks pending at times 0 and 1, clock 0. -/
def c3sched : Wheel :=
  match ScheduleEventAt c3mid 1 1 with
  | .ok c => c
  | .error _ => []

/-- The C3 scenario after `AdvanceTo(5, 1)`: the limited call fires only the
callback due at 0, leaving the callback due at 1 enqueued while the reported
clock is 5. -/
def c3after : Wheel := (AdvanceTo c3sched 5 1).1

/-- Concrete state: `c3sched` after scheduling one more callback at time 7
(used by the C5 witness). -/
def c5res : Wheel :=
  match ScheduleEventAt c3sched 7 9 with
  | .ok c => c
  | .error _ => []

/-- A concrete coarser level holding one record due at 40 in its active
bucket, linked below a fresh finest level of bucket size 1 (used by the C8
witness). -/
def c8next : Level :=
  ⟨(List.replicate ringLength []).set 0 [⟨40, 7⟩], 0, 32, 32, 32⟩

/-! ## List helper lemmas -/

theorem getD_set_self {α} (r : List α) (i : Nat) (b d : α) (h : i < r.length) :
    (r.set i b).getD i d = b := by
  simp [List.getD, List.getElem?_set_self, h]

theorem getD_set_ne {α} (r : List α) {i j : Nat} (b d : α) (h : i ≠ j) :
    (r.set i b).getD j d = r.getD j d := by
  simp [List.getD, List.getElem?_set_ne h]

theorem getD_of_le {α} (r : List α) {i : Nat} (d : α) (h : r.length ≤ i) :
    r.getD i d = d := by
  simp [List.getD, List.getElem?_eq_none h]

theorem mem_getD_flatten {α} {x : α} : ∀ {r : List (List α)} {i : Nat},
    x ∈ r.getD i [] → x ∈ r.flatten := by
  intro r
  induction r with
  | nil => intro i hx; simp [List.getD] at hx
  | cons b r ih =>
    intro i hx
    cases i with
    | zero => simp only [List.getD_cons_zero] at hx; exact List.mem_flatten.mpr ⟨b, by simp, hx⟩
    | succ j =>
      simp only [List.getD_cons_succ] at hx
      have := ih hx
      simp only [List.flatten_cons, List.mem_append]
      exact Or.inr this

theorem mem_flatten_getD {α} {x : α} : ∀ {r : List (List α)},
    x ∈ r.flatten → ∃ i, i < r.length ∧ x ∈ r.getD i [] := by
  intro r
  induction r with
  | nil => intro hx; simp at hx
  | cons b r ih =>
    intro hx
    rw [List.flatten_cons, List.mem_append] at hx
    rcases hx with hb | hr
    · exact ⟨0, by simp, by simpa using hb⟩
    · obtain ⟨i, hi, hx'⟩ := ih hr
      exact ⟨i + 1, by simpa using hi, by simpa using hx'⟩

theorem flatten_set_perm {α} : ∀ (r : List (List α)) (i : Nat) (b : List α), i < r.length →
    ((r.set i b).flatten ++ r.getD i []).Perm (r.flatten ++ b) := by
  intro r
  induction r with
  | nil => intro i b h; simp at h
  | cons a r ih =>
    intro i b h
    cases i with
    | zero =>
      simp only [List.set_cons_zero, List.flatten_cons, List.getD_cons_zero]
      have h1 : ((b ++ r.flatten) ++ a).Perm (a ++ (b ++ r.flatten)) := List.perm_append_comm
      have h2 : (a ++ (b ++ r.flatten)).Perm (a ++ (r.flatten ++ b)) :=
        (List.perm_append_comm).append_left a
      simpa [List.append_assoc] using h1.trans h2
    | succ j =>
      have hj : j < r.length := by simpa using h
      simp only [List.set_cons_succ, List.flatten_cons, List.getD_cons_succ]
      have hp := (ih j b hj).append_left a
      simpa [List.append_assoc] using hp

theorem flatten_eq_nil_of_getD {α} : ∀ (r : List (List α)),
    (∀ i, r.getD i [] = []) → r.flatten = [] := by
  intro r
  induction r with
  | nil => intro _; rfl
  | cons b r ih =>
    intro h
    have h0 : b = [] := h 0
    have hr : r.flatten = [] := ih (fun i => h (i + 1))
    simp [h0, hr]

theorem drop_all_isEmpty_iff {α} : ∀ (r : List (List α)) (k : Nat),
    ((r.drop k).all List.isEmpty = true) ↔ (∀ j, k ≤ j → r.getD j [] = []) := by
  intro r
  induction r with
  | nil => intro k; simp [List.getD]
  | cons b r ih =>
    intro k
    cases k with
    | zero =>
      simp only [List.drop_zero, List.all_cons, Bool.and_eq_true, List.isEmpty_iff]
      constructor
      · rintro ⟨hb, hr⟩ j _
        cases j with
        | zero => simpa using hb
        | succ i =>
          simp only [List.getD_cons_succ]
          exact ((ih 0).mp (by simpa using hr)) i (Nat.zero_le i)
      · intro h
        refine ⟨by simpa using h 0 (Nat.le_refl 0), ?_⟩
        have := (ih 0).mpr (fun j _ => by simpa using h (j + 1) (Nat.zero_le _))
        simpa using this
    | succ k' =>
      simp only [List.drop_succ_cons]
      rw [ih k']
      constructor
      · intro h j hj
        cases j with
        | zero => omega
        | succ i => simpa using h i (by omega)
      · intro h j hj
        have := h (j + 1) (by omega)
        simpa using this

theorem sum_drop_map_length {α} : ∀ (r : List (List α)) (k : Nat),
    (∀ j < k, r.getD j [] = []) →
    ((r.drop k).map List.length).sum = r.flatten.length := by
  intro r
  induction r with
  | nil => intro k _; simp
  | cons b r ih =>
    intro k hk
    cases k with
    | zero => simp [List.length_flatten]
    | succ k' =>
      have hb : b = [] := hk 0 (Nat.succ_pos _)
      have := ih k' (fun j hj => hk (j + 1) (by omega))
      simpa [hb, List.drop_succ_cons] using this

/-! ## Division range helper lemmas -/

theorem div_range_lower {s bs at_ : Nat} (h : s ≤ at_) :
    s + ((at_ - s) / bs) * bs ≤ at_ := by
  have := Nat.div_mul_le_self (at_ - s) bs
  omega

theorem div_range_upper {s bs : Nat} (at_ : Nat) (h : 0 < bs) :
    at_ < s + ((at_ - s) / bs + 1) * bs := by
  have h2 : at_ - s < ((at_ - s) / bs + 1) * bs :=
    (Nat.div_lt_iff_lt_mul h).mp (Nat.lt_succ_self _)
  omega

theorem div_range_eq {s bs at_ i : Nat} (h : 0 < bs)
    (h1 : s + i * bs ≤ at_) (h2 : at_ < s + (i + 1) * bs) : (at_ - s) / bs = i :=
  Nat.div_eq_of_lt_le (by omega) (by omega)

theorem div_lt_of_upper {s bs at_ : Nat} (h : 0 < bs)
    (h2 : at_ < s + ringLength * bs) : (at_ - s) / bs < ringLength := by
  refine (Nat.div_lt_iff_lt_mul h).mpr ?_
  simp only [ringLength] at h2 ⊢
  omega

/-! ## Invariant structure lemmas -/

theorem chainInv_head {l : Level} {rest : Wheel} (h : ChainInv (l :: rest)) : LevelWF l := by
  cases rest with
  | nil => exact h
  | cons n r => exact h.1

theorem chainInv_tail {l : Level} {rest : Wheel} (h : ChainInv (l :: rest)) : ChainInv rest := by
  cases rest with
  | nil => trivial
  | cons n r => exact h.2.2.2

theorem chainInv_link {l : Level} {rest : Wheel} (h : ChainInv (l :: rest)) :
    ∀ n, rest.head? = some n → linked l n := by
  intro n hn
  cases rest with
  | nil => simp at hn
  | cons m r =>
    simp only [List.head?_cons, Option.some.injEq] at hn
    exact hn ▸ h.2.1

theorem chainInv_next_nonempty {l : Level} {rest : Wheel} (h : ChainInv (l :: rest)) :
    rest ≠ [] → allEvents rest ≠ [] := by
  intro hne
  cases rest with
  | nil => exact absurd rfl hne
  | cons n r => exact h.2.2.1

theorem chainInv_cons {l : Level} {rest : Wheel} (hl : LevelWF l)
    (hlink : ∀ n, rest.head? = some n → linked l n)
    (hne : rest ≠ [] → allEvents rest ≠ [])
    (hc : ChainInv rest) : ChainInv (l :: rest) := by
  cases rest with
  | nil => exact hl
  | cons n r =>
    exact ⟨hl, hlink n rfl, hne (by simp), hc⟩

/-- The bucket-range clause of `LevelWF`, extended to every index (buckets at
or past the ring length read as empty). -/
theorem levelWF_range {l : Level} (h : LevelWF l) :
    ∀ i, ∀ e ∈ l.ring.getD i [], l.start + i * l.bucketSize ≤ e.due ∧
      e.due < l.start + (i + 1) * l.bucketSize := by
  intro i e he
  by_cases hi : i < ringLength
  · exact h.2.2.2.1 i hi e he
  · have hlen : l.ring.length ≤ i := by rw [h.1]; omega
    rw [getD_of_le _ _ hlen] at he
    simp at he

/-- Every event of a well-formed level is due at or after the active bucket's
start. -/
theorem levelWF_events_lb {l : Level} (h : LevelWF l) :
    ∀ e ∈ l.ring.flatten, l.start + l.ringIdx * l.bucketSize ≤ e.due := by
  intro e he
  obtain ⟨i, hi, hei⟩ := mem_flatten_getD he
  by_cases hlt : i < l.ringIdx
  · rw [h.2.2.2.2.1 i hlt] at hei; simp at hei
  · have := (levelWF_range h i e hei).1
    have hmul : l.ringIdx * l.bucketSize ≤ i * l.bucketSize :=
      Nat.mul_le_mul_right _ (by omega)
    omega

/-- Every event of the chain attached below a level is due at or after that
level's horizon. -/
theorem chain_events_lb : ∀ {rest : Wheel} {l : Level}, ChainInv (l :: rest) →
    ∀ e ∈ allEvents rest, l.start + ringLength * l.bucketSize ≤ e.due := by
  intro rest
  induction rest with
  | nil => intro l _ e he; simp [allEvents] at he
  | cons n r ih =>
    intro l h e he
    obtain ⟨hl, hlk, hne, hc⟩ := h
    rw [show allEvents (n :: r) = n.ring.flatten ++ allEvents r from rfl,
      List.mem_append] at he
    have hwf : LevelWF n := chainInv_head hc
    obtain ⟨hbsz, hstart⟩ := hlk
    rcases he with hr | hr
    · have := levelWF_events_lb hwf e hr
      omega
    · have := ih hc e hr
      have hIdx : n.ringIdx * n.bucketSize ≤ ringLength * n.bucketSize :=
        Nat.mul_le_mul_right _ (le_of_lt hwf.2.1)
      omega

/-- For a well-formed chain, `IsEmpty` answers exactly whether any event is
pending. -/
theorem isEmpty_iff_allEvents {c : Wheel} (h : ChainInv c) (hne : c ≠ []) :
    IsEmpty c = true ↔ allEvents c = [] := by
  cases c with
  | nil => exact absurd rfl hne
  | cons l rest =>
    have hwf : LevelWF l := chainInv_head h
    constructor
    · intro he
      simp only [IsEmpty, Bool.and_eq_true, List.isEmpty_iff] at he
      obtain ⟨hrest, hbuckets⟩ := he
      have hall : ∀ j, l.ring.getD j [] = [] := by
        intro j
        by_cases hj : j < l.ringIdx
        · exact hwf.2.2.2.2.1 j hj
        · exact (drop_all_isEmpty_iff l.ring l.ringIdx).mp hbuckets j (by omega)
      have hfl : l.ring.flatten = [] := flatten_eq_nil_of_getD _ hall
      simp [allEvents, hfl, hrest]
    · intro he
      have hfl : l.ring.flatten = [] ∧ allEvents rest = [] := by
        have : l.ring.flatten ++ allEvents rest = [] := he
        exact List.append_eq_nil.mp this
      have hrest : rest = [] := by
        by_contra hr
        exact (chainInv_next_nonempty h hr) hfl.2
      have hbuckets : ∀ j, l.ringIdx ≤ j → l.ring.getD j [] = [] := by
        intro j _
        cases hg : l.ring.getD j [] with
        | nil => rfl
        | cons x xs =>
          have : x ∈ l.ring.flatten := mem_getD_flatten (by rw [hg]; simp)
          rw [hfl.1] at this; simp at this
      simp only [IsEmpty, hrest, List.isEmpty_nil, Bool.true_and]
      exact (drop_all_isEmpty_iff l.ring l.ringIdx).mpr hbuckets

/-- For a well-formed chain, `Length` counts exactly the pending events. -/
theorem length_eq_allEvents : ∀ {c : Wheel}, ChainInv c →
    Length c = (allEvents c).length := by
  intro c
  induction c with
  | nil => intro _; rfl
  | cons l rest ih =>
    intro h
    have hwf : LevelWF l := chainInv_head h
    have hsum := sum_drop_map_length l.ring l.ringIdx hwf.2.2.2.2.1
    simp only [Length, allEvents, List.length_append, hsum, ih (chainInv_tail h)]

/-! ## Sorted-insertion (`eventNodeContainer.addEvent`) lemmas -/

theorem bucketAdd_perm (e : EventNode) : ∀ (b : Bucket), (bucketAdd e b).Perm (e :: b) := by
  intro b
  induction b with
  | nil => simp [bucketAdd]
  | cons x xs ih =>
    rw [bucketAdd]
    by_cases hle : e.due ≤ x.due
    · simp [hle]
    · simp only [if_neg hle]
      exact (ih.cons x).trans (List.Perm.swap e x xs)

theorem mem_bucketAdd {y e : EventNode} {b : Bucket} :
    y ∈ bucketAdd e b ↔ y = e ∨ y ∈ b := by
  rw [(bucketAdd_perm e b).mem_iff]; simp

theorem bucketAdd_length (e : EventNode) (b : Bucket) :
    (bucketAdd e b).length = b.length + 1 := by
  have := (bucketAdd_perm e b).length_eq
  simpa using this

theorem bucketAdd_sorted {e : EventNode} : ∀ {b : Bucket},
    b.Pairwise (fun a b => a.due ≤ b.due) →
    (bucketAdd e b).Pairwise (fun a b => a.due ≤ b.due) := by
  intro b
  induction b with
  | nil => intro _; simp [bucketAdd]
  | cons x xs ih =>
    intro hs
    rw [bucketAdd]
    rcases List.pairwise_cons.mp hs with ⟨hx, hxs⟩
    by_cases hle : e.due ≤ x.due
    · rw [if_pos hle]
      refine List.pairwise_cons.mpr ⟨?_, hs⟩
      intro y hy
      rcases List.mem_cons.mp hy with rfl | hy'
      · exact hle
      · exact le_trans hle (hx y hy')
    · rw [if_neg hle]
      refine List.pairwise_cons.mpr ⟨?_, ih hxs⟩
      intro y hy
      rcases mem_bucketAdd.mp hy with rfl | hy'
      · omega
      · exact hx y hy'

/-! ## Cascade reinsertion (`TimerWheel.addEvent`) lemmas -/

theorem addEventRing_spec {s bs : Nat} (hbs : 0 < bs) {e : EventNode} {r : List Bucket}
    (hlen : r.length = ringLength)
    (he : s ≤ e.due ∧ e.due < s + ringLength * bs)
    (hrange : ∀ i < ringLength, ∀ x ∈ r.getD i [], s + i * bs ≤ x.due ∧ x.due < s + (i + 1) * bs)
    (hsort : ∀ i < ringLength, (r.getD i []).Pairwise (fun a b => a.due ≤ b.due)) :
    (addEventRing s bs r e).length = ringLength ∧
    (∀ i < ringLength, ∀ x ∈ (addEventRing s bs r e).getD i [],
      s + i * bs ≤ x.due ∧ x.due < s + (i + 1) * bs) ∧
    (∀ i < ringLength, ((addEventRing s bs r e).getD i []).Pairwise (fun a b => a.due ≤ b.due)) ∧
    ((addEventRing s bs r e).flatten).Perm (e :: r.flatten) := by
  have hidx : (e.due - s) / bs < ringLength := div_lt_of_upper hbs he.2
  have hidxlen : (e.due - s) / bs < r.length := by omega
  have hlow : s + ((e.due - s) / bs) * bs ≤ e.due := div_range_lower he.1
  have hupp : e.due < s + ((e.due - s) / bs + 1) * bs := div_range_upper e.due hbs
  refine ⟨?_, ?_, ?_, ?_⟩
  · simpa [addEventRing] using hlen
  · intro i hi x hx
    by_cases hieq : (e.due - s) / bs = i
    · subst hieq
      rw [addEventRing, getD_set_self _ _ _ _ hidxlen] at hx
      rcases mem_bucketAdd.mp hx with rfl | hx'
      · exact ⟨hlow, hupp⟩
      · exact hrange _ hidx x hx'
    · rw [addEventRing, getD_set_ne _ _ _ hieq] at hx
      exact hrange i hi x hx
  · intro i hi
    by_cases hieq : (e.due - s) / bs = i
    · subst hieq
      rw [addEventRing, getD_set_self _ _ _ _ hidxlen]
      exact bucketAdd_sorted (hsort _ hidx)
    · rw [addEventRing, getD_set_ne _ _ _ hieq]
      exact hsort i hi
  · have h1 := flatten_set_perm r ((e.due - s) / bs) (bucketAdd e (r.getD ((e.due - s) / bs) [])) hidxlen
    have h2 : (r.flatten ++ bucketAdd e (r.getD ((e.due - s) / bs) [])).Perm
        (r.flatten ++ (e :: r.getD ((e.due - s) / bs) [])) :=
      (bucketAdd_perm _ _).append_left r.flatten
    have h3 := h1.trans h2
    have h4 : (r.flatten ++ (e :: r.getD ((e.due - s) / bs) [])).Perm
        ((e :: r.flatten) ++ r.getD ((e.due - s) / bs) []) := by
      have : (r.flatten ++ ([e] ++ r.getD ((e.due - s) / bs) [])).Perm
          (([e] ++ r.flatten) ++ r.getD ((e.due - s) / bs) []) := by
        rw [← List.append_assoc]
        exact (List.perm_append_comm).append_right _
      simpa using this
    have h5 := h3.trans h4
    have h6 : ((addEventRing s bs r e).flatten ++ r.getD ((e.due - s) / bs) []).Perm
        ((e :: r.flatten) ++ r.getD ((e.due - s) / bs) []) := by
      simpa [addEventRing] using h5
    exact (List.perm_append_right_iff _).mp h6

theorem foldl_addEventRing_spec {s bs : Nat} (hbs : 0 < bs) :
    ∀ (evs : List EventNode) (r : List Bucket),
    r.length = ringLength →
    (∀ e ∈ evs, s ≤ e.due ∧ e.due < s + ringLength * bs) →
    (∀ i < ringLength, ∀ x ∈ r.getD i [], s + i * bs ≤ x.due ∧ x.due < s + (i + 1) * bs) →
    (∀ i < ringLength, (r.getD i []).Pairwise (fun a b => a.due ≤ b.due)) →
    (evs.foldl (addEventRing s bs) r).length = ringLength ∧
    (∀ i < ringLength, ∀ x ∈ (evs.foldl (addEventRing s bs) r).getD i [],
      s + i * bs ≤ x.due ∧ x.due < s + (i + 1) * bs) ∧
    (∀ i < ringLength, ((evs.foldl (addEventRing s bs) r).getD i []).Pairwise
      (fun a b => a.due ≤ b.due)) ∧
    ((evs.foldl (addEventRing s bs) r).flatten).Perm (r.flatten ++ evs) := by
  intro evs
  induction evs with
  | nil =>
    intro r hlen he hrange hsort
    exact ⟨hlen, hrange, hsort, by simp⟩
  | cons e evs ih =>
    intro r hlen he hrange hsort
    have hstep := addEventRing_spec hbs hlen (he e (by simp))
      hrange hsort
    obtain ⟨hlen1, hrange1, hsort1, hperm1⟩ := hstep
    have hrec := ih (addEventRing s bs r e) hlen1
      (fun x hx => he x (by simp [hx])) hrange1 hsort1
    obtain ⟨hlen2, hrange2, hsort2, hperm2⟩ := hrec
    refine ⟨by simpa using hlen2, by simpa using hrange2, by simpa using hsort2, ?_⟩
    have hcomb : ((evs.foldl (addEventRing s bs) (addEventRing s bs r e)).flatten).Perm
        ((e :: r.flatten) ++ evs) := hperm2.trans (hperm1.append_right evs)
    have hfinal : ((e :: r.flatten) ++ evs).Perm (r.flatten ++ e :: evs) := by
      have : (([e] ++ r.flatten) ++ evs).Perm ((r.flatten ++ [e]) ++ evs) :=
        (List.perm_append_comm).append_right evs
      simpa using this
    simpa using hcomb.trans hfinal

/-! ## Cascade (`fetchFromNext`) specification -/

theorem fetchFromNext_spec : ∀ {rest : Wheel} {l : Level},
    l.ring.length = ringLength → 0 < l.bucketSize →
    (∀ i, l.ring.getD i [] = []) →
    l.start + ringLength * l.bucketSize ≤ l.now →
    ChainInv rest →
    (∀ n, rest.head? = some n → linked l n) →
    (fetchFromNext l rest).1.now = l.now ∧
    (fetchFromNext l rest).1.bucketSize = l.bucketSize ∧
    (fetchFromNext l rest).1.ringIdx = 0 ∧
    (fetchFromNext l rest).1.start = l.start + ringLength * l.bucketSize ∧
    RingSorted (fetchFromNext l rest).1 ∧
    ChainInv ((fetchFromNext l rest).1 :: (fetchFromNext l rest).2) ∧
    (allEvents ((fetchFromNext l rest).1 :: (fetchFromNext l rest).2)).Perm
      (allEvents (l :: rest)) := by
  intro rest
  induction rest with
  | nil =>
    intro l hlen hbs hempty hnow _ _
    have hfl : l.ring.flatten = [] := flatten_eq_nil_of_getD _ hempty
    have hfe : fetchFromNext l [] =
        ({ l with ringIdx := 0, start := l.start + ringLength * l.bucketSize }, []) := rfl
    rw [hfe]
    refine ⟨rfl, rfl, rfl, rfl, ?_, ?_, ?_⟩
    · intro i _
      show (l.ring.getD i []).Pairwise _
      rw [hempty i]
      exact List.Pairwise.nil
    · refine ⟨hlen, by simp [ringLength], hbs, ?_, ?_, ?_⟩
      · intro i _ e he
        have he' : e ∈ l.ring.getD i [] := he
        rw [hempty i] at he'
        simp at he'
      · intro i hi
        have hi' : i < 0 := hi
        simp at hi'
      · simpa using hnow
    · simp [allEvents, hfl]
  | cons n rest2 ih =>
    intro l hlen hbs hempty hnow hchain hlink
    have hlk : linked l n := hlink n rfl
    obtain ⟨hbsz, hstart⟩ := hlk
    have hwfn : LevelWF n := chainInv_head hchain
    have hfl : l.ring.flatten = [] := flatten_eq_nil_of_getD _ hempty
    have hnbs : 0 < n.bucketSize := hwfn.2.2.1
    -- the pulled bucket's events lie within the shifted ring span of `l`
    have hevs : ∀ e ∈ n.ring.getD n.ringIdx [],
        l.start + ringLength * l.bucketSize ≤ e.due ∧
        e.due < l.start + ringLength * l.bucketSize + ringLength * l.bucketSize := by
      intro e he
      have := levelWF_range hwfn n.ringIdx e he
      constructor
      · omega
      · have h2 := this.2
        have : n.start + (n.ringIdx + 1) * n.bucketSize =
            n.start + n.ringIdx * n.bucketSize + n.bucketSize := by ring
        omega
    have hfold := @foldl_addEventRing_spec (l.start + ringLength * l.bucketSize) l.bucketSize hbs
      (n.ring.getD n.ringIdx []) l.ring hlen hevs
      (by intro i _ x hx; rw [hempty i] at hx; simp at hx)
      (by intro i _; rw [hempty i]; exact List.Pairwise.nil)
    obtain ⟨hflen, hfrange, hfsort, hfperm⟩ := hfold
    have hfperm' : ((n.ring.getD n.ringIdx []).foldl
        (addEventRing (l.start + ringLength * l.bucketSize) l.bucketSize) l.ring).flatten.Perm
        (n.ring.getD n.ringIdx []) := by
      simpa [hfl] using hfperm
    -- facts about the advanced next level
    have hnlen : n.ring.length = ringLength := hwfn.1
    have hnidx : n.ringIdx < ringLength := hwfn.2.1
    have hnidxlen : n.ringIdx < n.ring.length := by omega
    have hn2earlier : ∀ i < n.ringIdx + 1, (n.ring.set n.ringIdx []).getD i [] = [] := by
      intro i hi
      by_cases hieq : n.ringIdx = i
      · subst hieq; exact getD_set_self _ _ _ _ hnidxlen
      · rw [getD_set_ne _ _ _ hieq]; exact hwfn.2.2.2.2.1 i (by omega)
    have hn2flat : ((n.ring.set n.ringIdx []).flatten ++ n.ring.getD n.ringIdx []).Perm
        n.ring.flatten := by
      simpa using flatten_set_perm n.ring n.ringIdx [] hnidxlen
    set s2 := l.start + ringLength * l.bucketSize with hs2
    set evs := n.ring.getD n.ringIdx [] with hevsdef
    set ring2 := evs.foldl (addEventRing s2 l.bucketSize) l.ring with hring2
    set l2 : Level := ⟨ring2, 0, l.now, s2, l.bucketSize⟩ with hl2
    set n2 : Level := ⟨n.ring.set n.ringIdx [], n.ringIdx + 1, n.now + n.bucketSize, n.start, n.bucketSize⟩ with hn2
    have hfe : fetchFromNext l (n :: rest2) =
        (if IsEmpty (n2 :: rest2) then (l2, [])
         else if n2.ringIdx == ringLength then
           (l2, (fetchFromNext n2 rest2).1 :: (fetchFromNext n2 rest2).2)
         else (l2, n2 :: rest2)) := rfl
    have hwl2 : LevelWF l2 := by
      refine ⟨hflen, by simp [ringLength], hbs, hfrange, ?_, ?_⟩
      · intro i hi
        have hi' : i < 0 := hi
        simp at hi'
      · show s2 + 0 * l.bucketSize ≤ l.now
        omega
    have hl2sort : RingSorted l2 := hfsort
    have hn2len : n2.ring.length = ringLength := by
      show (n.ring.set n.ringIdx []).length = ringLength
      simpa using hnlen
    by_cases hise : IsEmpty (n2 :: rest2) = true
    · -- the advanced next level is provably empty and is dropped
      rw [hfe, if_pos hise]
      simp only [IsEmpty, Bool.and_eq_true, List.isEmpty_iff] at hise
      obtain ⟨hr2, hball⟩ := hise
      have hn2all : ∀ j, n2.ring.getD j [] = [] := by
        intro j
        by_cases hj : j < n2.ringIdx
        · exact hn2earlier j hj
        · exact (drop_all_isEmpty_iff n2.ring n2.ringIdx).mp hball j (by omega)
      have hn2fl : n2.ring.flatten = [] := flatten_eq_nil_of_getD _ hn2all
      have hevn : evs.Perm n.ring.flatten := by
        have := hn2flat
        rw [show (n.ring.set n.ringIdx []) = n2.ring from rfl, hn2fl] at this
        simpa using this
      refine ⟨rfl, rfl, rfl, rfl, hl2sort, hwl2, ?_⟩
      show (ring2.flatten ++ allEvents []).Perm
        (l.ring.flatten ++ (n.ring.flatten ++ allEvents rest2))
      rw [hr2, hfl]
      simpa [allEvents] using hfperm'.trans hevn
    · by_cases hwrap : (n2.ringIdx == ringLength) = true
      · -- the advanced next level has itself wrapped: recursive cascade
        rw [hfe, if_neg hise, if_pos hwrap]
        have h31 : n.ringIdx = 31 := by
          have : n.ringIdx + 1 = ringLength := by simpa using hwrap
          simpa [ringLength] using this
        have hidx32 : n2.ringIdx = ringLength := by
          have e1 : n2.ringIdx = n.ringIdx + 1 := rfl
          rw [e1, h31]
          decide
        have hr2ne : rest2 ≠ [] := by
          intro h0
          subst h0
          apply hise
          simp only [IsEmpty, List.isEmpty_nil, Bool.true_and]
          rw [List.drop_of_length_le (by rw [hn2len, hidx32] : n2.ring.length ≤ n2.ringIdx)]
          rfl
        have hch2 : ChainInv rest2 := chainInv_tail hchain
        have hne2 : allEvents rest2 ≠ [] := chainInv_next_nonempty hchain hr2ne
        have hemp2 : ∀ i, n2.ring.getD i [] = [] := by
          intro i
          by_cases hi : i < n2.ringIdx
          · exact hn2earlier i hi
          · refine getD_of_le _ _ ?_
            rw [hn2len, ← hidx32]
            omega
        have hnow2 : n2.start + ringLength * n2.bucketSize ≤ n2.now := by
          have hn0 := hwfn.2.2.2.2.2
          rw [h31] at hn0
          show n.start + ringLength * n.bucketSize ≤ n.now + n.bucketSize
          simp only [ringLength] at hn0 ⊢
          omega
        have hlink2 : ∀ m, rest2.head? = some m → linked n2 m := by
          intro m hm
          obtain ⟨hmb, hms⟩ := chainInv_link hchain m hm
          exact ⟨hmb, hms⟩
        obtain ⟨ihnow, ihbs, ihidx, ihstart, _, ihchain, ihperm⟩ :=
          ih hn2len hnbs hemp2 hnow2 hch2 hlink2
        have key : n.start + ringLength * n.bucketSize = s2 + ringLength * l.bucketSize := by
          have h1 := hstart
          rw [h31, hs2] at h1
          have h2 := hbsz
          rw [hs2]
          simp only [ringLength] at h1 h2 ⊢
          omega
        refine ⟨rfl, rfl, rfl, rfl, hl2sort, ?_, ?_⟩
        · refine chainInv_cons hwl2 ?_ ?_ ihchain
          · intro m hm
            simp only [List.head?_cons, Option.some.injEq] at hm
            subst hm
            refine ⟨by rw [ihbs]; exact hbsz, ?_⟩
            rw [ihstart, ihidx, ihbs]
            have e2 : l2.start = s2 := rfl
            have e3 : l2.bucketSize = l.bucketSize := rfl
            have e4 : n2.start = n.start := rfl
            have e5 : n2.bucketSize = n.bucketSize := rfl
            rw [e2, e3, e4, e5]
            simpa using key
          · intro _
            intro h0
            have := ihperm
            rw [h0] at this
            have h0' := this.symm.eq_nil
            have : allEvents (n2 :: rest2) = n2.ring.flatten ++ allEvents rest2 := rfl
            rw [this] at h0'
            exact hne2 (List.append_eq_nil.mp h0').2
        · show (ring2.flatten ++
            allEvents ((fetchFromNext n2 rest2).1 :: (fetchFromNext n2 rest2).2)).Perm
            (l.ring.flatten ++ (n.ring.flatten ++ allEvents rest2))
          rw [hfl]
          have step1 : (ring2.flatten ++
              allEvents ((fetchFromNext n2 rest2).1 :: (fetchFromNext n2 rest2).2)).Perm
              (evs ++ (n2.ring.flatten ++ allEvents rest2)) :=
            hfperm'.append ihperm
          have step2 : (evs ++ (n2.ring.flatten ++ allEvents rest2)).Perm
              (n.ring.flatten ++ allEvents rest2) := by
            have h1 : ((evs ++ n2.ring.flatten) ++ allEvents rest2).Perm
                ((n2.ring.flatten ++ evs) ++ allEvents rest2) :=
              (List.perm_append_comm).append_right _
            have h2 : ((n2.ring.flatten ++ evs) ++ allEvents rest2).Perm
                (n.ring.flatten ++ allEvents rest2) := hn2flat.append_right _
            simpa [List.append_assoc] using h1.trans h2
          simpa using step1.trans step2
      · -- the advanced next level stays attached
        rw [hfe, if_neg hise, if_neg hwrap]
        have hid2 : n2.ringIdx < ringLength := by
          have : n2.ringIdx ≠ ringLength := by simpa using hwrap
          show n.ringIdx + 1 < ringLength
          have h1 : n.ringIdx + 1 ≠ ringLength := this
          omega
        have hwn2 : LevelWF n2 := by
          refine ⟨hn2len, hid2, hnbs, ?_, hn2earlier, ?_⟩
          · intro i hi x hx
            by_cases hieq : n.ringIdx = i
            · subst hieq
              rw [show n2.ring = n.ring.set n.ringIdx [] from rfl,
                getD_set_self _ _ _ _ hnidxlen] at hx
              simp at hx
            · rw [show n2.ring = n.ring.set n.ringIdx [] from rfl,
                getD_set_ne _ _ _ hieq] at hx
              exact hwfn.2.2.2.1 i hi x hx
          · show n.start + (n.ringIdx + 1) * n.bucketSize ≤ n.now + n.bucketSize
            have hn0 := hwfn.2.2.2.2.2
            have : (n.ringIdx + 1) * n.bucketSize = n.ringIdx * n.bucketSize + n.bucketSize :=
              Nat.succ_mul _ _
            omega
        have hch2 : ChainInv rest2 := chainInv_tail hchain
        have hn2ne : allEvents (n2 :: rest2) ≠ [] := by
          by_cases hr2 : rest2 = []
          · subst hr2
            simp only [IsEmpty, List.isEmpty_nil, Bool.true_and] at hise
            have : ¬ (∀ j, n2.ringIdx ≤ j → n2.ring.getD j [] = []) := by
              intro hall
              exact hise ((drop_all_isEmpty_iff n2.ring n2.ringIdx).mpr hall)
            push_neg at this
            obtain ⟨j, hj, hjne⟩ := this
            intro h0
            have : allEvents (n2 :: []) = n2.ring.flatten ++ [] := rfl
            rw [this] at h0
            cases hg : n2.ring.getD j [] with
            | nil => exact hjne hg
            | cons x xs =>
              have hx : x ∈ n2.ring.flatten := mem_getD_flatten (by rw [hg]; simp)
              rw [List.append_nil] at h0
              rw [h0] at hx
              simp at hx
          · have := chainInv_next_nonempty hchain hr2
            intro h0
            have h0' : n2.ring.flatten ++ allEvents rest2 = [] := h0
            exact this (List.append_eq_nil.mp h0').2
        refine ⟨rfl, rfl, rfl, rfl, hl2sort, ?_, ?_⟩
        · refine chainInv_cons hwl2 ?_ (fun _ => hn2ne) ?_
          · intro m hm
            simp only [List.head?_cons, Option.some.injEq] at hm
            subst hm
            refine ⟨hbsz, ?_⟩
            show n.start + (n.ringIdx + 1) * n.bucketSize = s2 + ringLength * l.bucketSize
            have h1 := hstart
            rw [hs2] at h1
            have hmul : (n.ringIdx + 1) * n.bucketSize =
                n.ringIdx * n.bucketSize + n.bucketSize := Nat.succ_mul _ _
            rw [hs2, hmul]
            have h2 := hbsz
            simp only [ringLength] at h1 h2 ⊢
            omega
          · refine chainInv_cons hwn2 ?_ (chainInv_next_nonempty hchain) hch2
            intro m hm
            obtain ⟨hmb, hms⟩ := chainInv_link hchain m hm
            exact ⟨hmb, hms⟩
        · show (ring2.flatten ++ (n2.ring.flatten ++ allEvents rest2)).Perm
            (l.ring.flatten ++ (n.ring.flatten ++ allEvents rest2))
          rw [hfl]
          have step1 : (ring2.flatten ++ (n2.ring.flatten ++ allEvents rest2)).Perm
              (evs ++ (n2.ring.flatten ++ allEvents rest2)) :=
            hfperm'.append_right _
          have step2 : (evs ++ (n2.ring.flatten ++ allEvents rest2)).Perm
              (n.ring.flatten ++ allEvents rest2) := by
            have h1 : ((evs ++ n2.ring.flatten) ++ allEvents rest2).Perm
                ((n2.ring.flatten ++ evs) ++ allEvents rest2) :=
              (List.perm_append_comm).append_right _
            have h2 : ((n2.ring.flatten ++ evs) ++ allEvents rest2).Perm
                (n.ring.flatten ++ allEvents rest2) := hn2flat.append_right _
            simpa [List.append_assoc] using h1.trans h2
          simpa using step1.trans step2

/-! ## Inner firing loop (`popDue`) specification -/

theorem popDue_spec (target : Nat) (limited : Bool) (limitN : Nat) :
    ∀ (b : Bucket) (ec : Nat),
    (popDue target limited limitN b ec).1 ++ (popDue target limited limitN b ec).2.1 = b ∧
    (popDue target limited limitN b ec).2.2 = ec + (popDue target limited limitN b ec).1.length ∧
    (∀ e ∈ (popDue target limited limitN b ec).1, e.due ≤ target) ∧
    (limited = true → ec ≤ limitN → (popDue target limited limitN b ec).2.2 ≤ limitN) ∧
    (∀ e r2, (popDue target limited limitN b ec).2.1 = e :: r2 →
      target < e.due ∨ (limited = true ∧ limitN = (popDue target limited limitN b ec).2.2)) := by
  intro b
  induction b with
  | nil =>
    intro ec
    refine ⟨rfl, by simp [popDue], by simp [popDue], fun _ h => by simpa [popDue] using h, ?_⟩
    intro e r2 h
    simp [popDue] at h
  | cons x xs ih =>
    intro ec
    by_cases hdue : x.due ≤ target
    · by_cases hlim : (limited && limitN == ec) = true
      · rw [show popDue target limited limitN (x :: xs) ec = ([], x :: xs, ec) from by
          simp [popDue, hdue, hlim]]
        obtain ⟨hl, heq⟩ := Bool.and_eq_true_iff.mp hlim
        refine ⟨rfl, by simp, by simp, fun _ h => by simpa using h, ?_⟩
        intro e r2 h
        simp only [List.cons.injEq] at h
        exact Or.inr ⟨hl, by simpa using heq⟩
      · rw [show popDue target limited limitN (x :: xs) ec =
            (x :: (popDue target limited limitN xs (ec + 1)).1,
             (popDue target limited limitN xs (ec + 1)).2.1,
             (popDue target limited limitN xs (ec + 1)).2.2) from by
          simp [popDue, hdue, hlim]]
        obtain ⟨happ, hec, hdue', hcap, hstop⟩ := ih (ec + 1)
        refine ⟨by simpa using happ, by simpa [hec] using by omega, ?_, ?_, ?_⟩
        · intro e he
          rcases List.mem_cons.mp he with rfl | he'
          · exact hdue
          · exact hdue' e he'
        · intro hl hle
          refine hcap hl ?_
          rcases Nat.lt_or_ge ec limitN with hlt | hge
          · omega
          · exfalso
            have : limitN = ec := by omega
            rw [hl, this] at hlim
            simp at hlim
        · intro e r2 h
          exact hstop e r2 h
    · rw [show popDue target limited limitN (x :: xs) ec = ([], x :: xs, ec) from by
        simp [popDue, hdue]]
      refine ⟨rfl, by simp, by simp, fun _ h => by simpa using h, ?_⟩
      intro e r2 h
      simp only [List.cons.injEq] at h
      left
      rw [← h.1]
      omega

/-- Every pending event outside the (possibly rewritten) active bucket of the
root level is due at or after the next bucket boundary. -/
theorem events_outside_bucket_lb {l : Level} {rest : Wheel} (hchain : ChainInv (l :: rest))
    (remaining : Bucket) :
    ∀ p ∈ allEvents ((⟨l.ring.set l.ringIdx remaining, l.ringIdx, l.now, l.start,
        l.bucketSize⟩ : Level) :: rest),
      p ∈ remaining ∨ l.start + (l.ringIdx + 1) * l.bucketSize ≤ p.due := by
  have hwf : LevelWF l := chainInv_head hchain
  intro p hp
  have hp' : p ∈ (l.ring.set l.ringIdx remaining).flatten ∨ p ∈ allEvents rest := by
    have : allEvents ((⟨l.ring.set l.ringIdx remaining, l.ringIdx, l.now, l.start,
        l.bucketSize⟩ : Level) :: rest) =
        (l.ring.set l.ringIdx remaining).flatten ++ allEvents rest := rfl
    rw [this, List.mem_append] at hp
    exact hp
  rcases hp' with hp' | hp'
  · obtain ⟨j, hj, hpj⟩ := mem_flatten_getD hp'
    by_cases hjeq : l.ringIdx = j
    · subst hjeq
      rw [getD_set_self _ _ _ _ (by rw [List.length_set] at hj; exact hj)] at hpj
      exact Or.inl hpj
    · rw [getD_set_ne _ _ _ hjeq] at hpj
      by_cases hjlt : j < l.ringIdx
      · rw [hwf.2.2.2.2.1 j hjlt] at hpj
        simp at hpj
      · right
        have := (levelWF_range hwf j p hpj).1
        have hmul : (l.ringIdx + 1) * l.bucketSize ≤ j * l.bucketSize :=
          Nat.mul_le_mul_right _ (by omega)
        omega
  · right
    have := chain_events_lb hchain p hp'
    have hmul : (l.ringIdx + 1) * l.bucketSize ≤ ringLength * l.bucketSize :=
      Nat.mul_le_mul_right _ (by have := hwf.2.1; omega)
    omega

/-! ## Outer loop (`AdvanceTo`) specification -/

theorem advanceLoop_spec (target : Nat) (limited : Bool) (limitN : Nat) :
    ∀ (fuel : Nat) (l : Level) (rest : Wheel) (ec : Nat),
    RingSorted l → ChainInv (l :: rest) → l.now ≤ target →
    target < l.start + l.ringIdx * l.bucketSize + fuel * l.bucketSize →
    (limited = true → ec ≤ limitN) →
    LoopPost target limited limitN l rest ec
      (advanceLoop target limited limitN fuel l rest ec) := by
  intro fuel
  induction fuel with
  | zero =>
    intro l rest ec hsort hchain hnow hfuel hec
    exfalso
    have hwf := chainInv_head hchain
    have hn := hwf.2.2.2.2.2
    omega
  | succ fuel ih =>
    intro l rest ec hsort hchain hnow hfuel hec
    have hwf : LevelWF l := chainInv_head hchain
    have hlen : l.ring.length = ringLength := hwf.1
    have hidx : l.ringIdx < ringLength := hwf.2.1
    have hbs : 0 < l.bucketSize := hwf.2.2.1
    have hidxlen : l.ringIdx < l.ring.length := by omega
    have hbsort : (l.ring.getD l.ringIdx []).Pairwise (fun a b => a.due ≤ b.due) :=
      hsort _ hidx
    have hnlt : ¬ target < l.now := not_lt.mpr hnow
    rcases hpd : popDue target limited limitN (l.ring.getD l.ringIdx []) ec
      with ⟨fired, rem, ec2⟩
    have hps := popDue_spec target limited limitN (l.ring.getD l.ringIdx []) ec
    rw [hpd] at hps
    dsimp only at hps
    obtain ⟨happ, hec2, hfdue, hcap, hstop⟩ := hps
    have hfsort : fired.Pairwise (fun a b => a.due ≤ b.due) := by
      rw [← happ] at hbsort
      exact (List.pairwise_append.mp hbsort).1
    have hrsort : rem.Pairwise (fun a b => a.due ≤ b.due) := by
      rw [← happ] at hbsort
      exact (List.pairwise_append.mp hbsort).2.1
    have hcross : ∀ f ∈ fired, ∀ x ∈ rem, f.due ≤ x.due := by
      rw [← happ] at hbsort
      exact (List.pairwise_append.mp hbsort).2.2
    have hfsub : ∀ f ∈ fired, f ∈ l.ring.getD l.ringIdx [] := by
      intro f hf
      rw [← happ]
      exact List.mem_append.mpr (Or.inl hf)
    have hrsub : ∀ x ∈ rem, x ∈ l.ring.getD l.ringIdx [] := by
      intro x hx
      rw [← happ]
      exact List.mem_append.mpr (Or.inr hx)
    have hfub : ∀ f ∈ fired, f.due < l.start + (l.ringIdx + 1) * l.bucketSize :=
      fun f hf => (levelWF_range hwf _ f (hfsub f hf)).2
    have hrub : ∀ x ∈ rem, x.due < l.start + (l.ringIdx + 1) * l.bucketSize :=
      fun x hx => (levelWF_range hwf _ x (hrsub x hx)).2
    have hperm0 : (l.ring.flatten ++ allEvents rest).Perm
        (fired ++ ((l.ring.set l.ringIdx rem).flatten ++ allEvents rest)) := by
      have h1 := flatten_set_perm l.ring l.ringIdx rem hidxlen
      rw [← happ] at h1
      have h2 : ((l.ring.set l.ringIdx rem).flatten ++ fired) ++ rem =
          (l.ring.set l.ringIdx rem).flatten ++ (fired ++ rem) := by
        simp [List.append_assoc]
      have h3 : (((l.ring.set l.ringIdx rem).flatten ++ fired) ++ rem).Perm
          (l.ring.flatten ++ rem) := by rw [h2]; exact h1
      have h4 : ((l.ring.set l.ringIdx rem).flatten ++ fired).Perm l.ring.flatten :=
        (List.perm_append_right_iff _).mp h3
      have h5 : l.ring.flatten.Perm (fired ++ (l.ring.set l.ringIdx rem).flatten) :=
        (h4.symm).trans List.perm_append_comm
      have h6 := h5.append_right (allEvents rest)
      simpa [List.append_assoc] using h6
    have houtside := events_outside_bucket_lb hchain rem
    have hrlWF : ∀ (nowF : Nat), l.start + l.ringIdx * l.bucketSize ≤ nowF →
        LevelWF ⟨l.ring.set l.ringIdx rem, l.ringIdx, nowF, l.start, l.bucketSize⟩ := by
      intro nowF hnf
      refine ⟨by simpa using hlen, hidx, hbs, ?_, ?_, hnf⟩
      · intro i hi x hx
        by_cases hieq : l.ringIdx = i
        · subst hieq
          rw [getD_set_self _ _ _ _ hidxlen] at hx
          exact levelWF_range hwf _ x (hrsub x hx)
        · rw [getD_set_ne _ _ _ hieq] at hx
          exact hwf.2.2.2.1 i hi x hx
      · intro i hilt
        have hilt' : i < l.ringIdx := hilt
        by_cases hieq : l.ringIdx = i
        · exfalso; omega
        · rw [getD_set_ne _ _ _ hieq]
          exact hwf.2.2.2.2.1 i hilt'

    have hrlSorted : RingSorted ⟨l.ring.set l.ringIdx rem, l.ringIdx, l.now, l.start,
        l.bucketSize⟩ := by
      intro i hi
      show ((l.ring.set l.ringIdx rem).getD i []).Pairwise _
      by_cases hieq : l.ringIdx = i
      · subst hieq
        rw [getD_set_self _ _ _ _ hidxlen]
        exact hrsort
      · rw [getD_set_ne _ _ _ hieq]
        exact hsort i hi
    have hchain' : ∀ (nowF : Nat), l.start + l.ringIdx * l.bucketSize ≤ nowF →
        ChainInv (⟨l.ring.set l.ringIdx rem, l.ringIdx, nowF, l.start,
          l.bucketSize⟩ :: rest) := by
      intro nowF hnf
      refine chainInv_cons (hrlWF nowF hnf) ?_ (chainInv_next_nonempty hchain)
        (chainInv_tail hchain)
      intro m hm
      exact chainInv_link hchain m hm
    cases rem with
    | nil =>
      -- the bucket was fully drained
      simp only [advanceLoop]
      rw [if_neg hnlt, hpd]
      dsimp only
      by_cases hb : target < l.start + (l.ringIdx + 1) * l.bucketSize
      · -- the next bucket boundary is after the target: stop
        rw [if_pos hb]
        refine ⟨hec2, hfdue, hfsort, hperm0, ?_, fun hl => hcap hl (hec hl), ?_, rfl,
          hrlSorted, ?_⟩
        · intro f hf p hp
          rcases houtside p hp with h0 | h0
          · simp at h0
          · have := hfub f hf
            omega
        · intro _ p hp
          rcases houtside p hp with h0 | h0
          · simp at h0
          · omega
        · refine hchain' target ?_
          have := hwf.2.2.2.2.2
          omega
      · -- the boundary is reached: advance (and possibly cascade), then loop
        rw [if_neg hb]
        have hble : l.start + (l.ringIdx + 1) * l.bucketSize ≤ target := not_lt.mp hb
        have hcont : ∀ (stl : Level) (str : Wheel),
            RingSorted stl → ChainInv (stl :: str) →
            stl.now ≤ target →
            target < stl.start + stl.ringIdx * stl.bucketSize + fuel * stl.bucketSize →
            stl.bucketSize = l.bucketSize →
            (allEvents (stl :: str)).Perm
              ((l.ring.set l.ringIdx []).flatten ++ allEvents rest) →
            LoopPost target limited limitN l rest ec
              ((advanceLoop target limited limitN fuel stl str ec2).1,
               (advanceLoop target limited limitN fuel stl str ec2).2.1,
               (advanceLoop target limited limitN fuel stl str ec2).2.2.1,
               fired ++ (advanceLoop target limited limitN fuel stl str ec2).2.2.2) := by
          intro stl str hssort hschain hsnow hsbound hsbs hsperm
          have hstLB : ∀ p ∈ allEvents (stl :: str),
              l.start + (l.ringIdx + 1) * l.bucketSize ≤ p.due := by
            intro p hp
            have hp2 : p ∈ (l.ring.set l.ringIdx []).flatten ++ allEvents rest :=
              hsperm.subset hp
            rcases houtside p hp2 with h0 | h0
            · simp at h0
            · exact h0
          have IH := ih stl str ec2 hssort hschain hsnow hsbound (fun hl => hcap hl (hec hl))
          obtain ⟨iec, idue, isort, iperm, ilow, icap, istop, ibs, irsort, ichain⟩ := IH
          have hrfsub : ∀ g ∈ (advanceLoop target limited limitN fuel stl str ec2).2.2.2,
              g ∈ allEvents (stl :: str) := by
            intro g hg
            exact iperm.symm.subset (List.mem_append.mpr (Or.inl hg))
          have hleftsub : ∀ p ∈ allEvents
              ((advanceLoop target limited limitN fuel stl str ec2).1 ::
               (advanceLoop target limited limitN fuel stl str ec2).2.1),
              p ∈ allEvents (stl :: str) := by
            intro p hp
            exact iperm.symm.subset (List.mem_append.mpr (Or.inr hp))
          refine ⟨?_, ?_, ?_, ?_, ?_, icap, istop, by rw [ibs, hsbs], irsort, ichain⟩
          · rw [iec, hec2]
            simp [List.length_append]
            omega
          · intro e he
            rcases List.mem_append.mp he with he' | he'
            · exact hfdue e he'
            · exact idue e he'
          · refine List.pairwise_append.mpr ⟨hfsort, isort, ?_⟩
            intro f hf g hg
            have h1 := hfub f hf
            have h2 := hstLB g (hrfsub g hg)
            omega
          · have s1 : (allEvents (l :: rest)).Perm
                (fired ++ ((l.ring.set l.ringIdx []).flatten ++ allEvents rest)) := hperm0
            have s2 : (fired ++ ((l.ring.set l.ringIdx []).flatten ++ allEvents rest)).Perm
                (fired ++ allEvents (stl :: str)) :=
              (hsperm.symm).append_left fired
            have s3 : (fired ++ allEvents (stl :: str)).Perm
                (fired ++ ((advanceLoop target limited limitN fuel stl str ec2).2.2.2 ++
                  allEvents ((advanceLoop target limited limitN fuel stl str ec2).1 ::
                    (advanceLoop target limited limitN fuel stl str ec2).2.1))) :=
              iperm.append_left fired
            have := (s1.trans s2).trans s3
            simpa [List.append_assoc] using this
          · intro f hf p hp
            rcases List.mem_append.mp hf with hf' | hf'
            · have h1 := hfub f hf'
              have h2 := hstLB p (hleftsub p hp)
              omega
            · exact ilow f hf' p hp
        by_cases hwrap : ((l.ringIdx + 1) == ringLength) = true
        · rw [if_pos hwrap]
          have h31 : l.ringIdx + 1 = ringLength := by simpa using hwrap
          have hl2len : (⟨l.ring.set l.ringIdx [], l.ringIdx + 1,
              l.start + (l.ringIdx + 1) * l.bucketSize, l.start,
              l.bucketSize⟩ : Level).ring.length = ringLength := by
            simpa using hlen
          have hl2empty : ∀ i, (⟨l.ring.set l.ringIdx [], l.ringIdx + 1,
              l.start + (l.ringIdx + 1) * l.bucketSize, l.start,
              l.bucketSize⟩ : Level).ring.getD i [] = [] := by
            intro i
            show (l.ring.set l.ringIdx []).getD i [] = []
            by_cases hieq : l.ringIdx = i
            · subst hieq; exact getD_set_self _ _ _ _ hidxlen
            · rw [getD_set_ne _ _ _ hieq]
              by_cases hilt : i < l.ringIdx
              · exact hwf.2.2.2.2.1 i hilt
              · refine getD_of_le _ _ ?_
                rw [hlen]
                omega
          have hl2now : (⟨l.ring.set l.ringIdx [], l.ringIdx + 1,
              l.start + (l.ringIdx + 1) * l.bucketSize, l.start,
              l.bucketSize⟩ : Level).start + ringLength *
              (⟨l.ring.set l.ringIdx [], l.ringIdx + 1,
              l.start + (l.ringIdx + 1) * l.bucketSize, l.start,
              l.bucketSize⟩ : Level).bucketSize ≤
              (⟨l.ring.set l.ringIdx [], l.ringIdx + 1,
              l.start + (l.ringIdx + 1) * l.bucketSize, l.start,
              l.bucketSize⟩ : Level).now := by
            show l.start + ringLength * l.bucketSize ≤
              l.start + (l.ringIdx + 1) * l.bucketSize
            rw [h31]
          have hl2link : ∀ n, rest.head? = some n → linked (⟨l.ring.set l.ringIdx [],
              l.ringIdx + 1, l.start + (l.ringIdx + 1) * l.bucketSize, l.start,
              l.bucketSize⟩ : Level) n := by
            intro n hn
            exact chainInv_link hchain n hn
          obtain ⟨fnow, fbs, fidx, fstart, fsort, fchain, fperm⟩ :=
            fetchFromNext_spec hl2len hbs hl2empty hl2now (chainInv_tail hchain) hl2link
          refine hcont _ _ fsort fchain ?_ ?_ ?_ ?_
          · rw [fnow]
            exact hble
          · rw [fstart, fidx, fbs]
            have goal2 : target < l.start + ringLength * l.bucketSize + 0 * l.bucketSize +
                fuel * l.bucketSize := by
              have hmul2 : (fuel + 1) * l.bucketSize = fuel * l.bucketSize + l.bucketSize :=
                Nat.succ_mul _ _
              have hmul : (l.ringIdx + 1) * l.bucketSize =
                  l.ringIdx * l.bucketSize + l.bucketSize := Nat.succ_mul _ _
              rw [← h31]
              omega
            exact goal2
          · exact fbs
          · have : allEvents ((⟨l.ring.set l.ringIdx [], l.ringIdx + 1,
                l.start + (l.ringIdx + 1) * l.bucketSize, l.start,
                l.bucketSize⟩ : Level) :: rest) =
                (l.ring.set l.ringIdx []).flatten ++ allEvents rest := rfl
            rw [← this]
            exact fperm
        · rw [if_neg hwrap]
          have hwlt : l.ringIdx + 1 < ringLength := by
            have : l.ringIdx + 1 ≠ ringLength := by simpa using hwrap
            omega
          refine hcont _ _ ?_ ?_ ?_ ?_ rfl (List.Perm.refl _)
          · intro i hi
            show ((l.ring.set l.ringIdx []).getD i []).Pairwise _
            by_cases hieq : l.ringIdx = i
            · subst hieq
              rw [getD_set_self _ _ _ _ hidxlen]
              exact List.Pairwise.nil
            · rw [getD_set_ne _ _ _ hieq]
              exact hsort i hi
          · refine chainInv_cons ?_ ?_ (chainInv_next_nonempty hchain) (chainInv_tail hchain)
            · refine ⟨by simpa using hlen, hwlt, hbs, ?_, ?_, ?_⟩
              · intro i hi x hx
                have hx' : x ∈ (l.ring.set l.ringIdx []).getD i [] := hx
                by_cases hieq : l.ringIdx = i
                · subst hieq
                  rw [getD_set_self _ _ _ _ hidxlen] at hx'
                  simp at hx'
                · rw [getD_set_ne _ _ _ hieq] at hx'
                  exact hwf.2.2.2.1 i hi x hx'
              · intro i hilt
                have hilt' : i < l.ringIdx + 1 := hilt
                show (l.ring.set l.ringIdx []).getD i [] = []
                by_cases hieq : l.ringIdx = i
                · subst hieq; exact getD_set_self _ _ _ _ hidxlen
                · rw [getD_set_ne _ _ _ hieq]
                  exact hwf.2.2.2.2.1 i (by omega)
              · exact Nat.le_refl _
            · intro m hm
              exact chainInv_link hchain m hm
          · exact hble
          · show target < l.start + (l.ringIdx + 1) * l.bucketSize + fuel * l.bucketSize
            have hmul : (l.ringIdx + 1) * l.bucketSize =
                l.ringIdx * l.bucketSize + l.bucketSize := Nat.succ_mul _ _
            have hmul2 : (fuel + 1) * l.bucketSize =
                fuel * l.bucketSize + l.bucketSize := Nat.succ_mul _ _
            omega
    | cons e r2 =>
      -- the bucket retained a record: the loop stops here
      simp only [advanceLoop]
      rw [if_neg hnlt, hpd]
      dsimp only
      have hmain : ∀ (nf : Nat), LoopPost target limited limitN l rest ec
          (⟨l.ring.set l.ringIdx (e :: r2), l.ringIdx, nf, l.start, l.bucketSize⟩,
           rest, ec2, fired) := by
        intro nf
        refine ⟨hec2, hfdue, hfsort, hperm0, ?_, fun hl => hcap hl (hec hl), ?_, rfl, ?_, ?_⟩
        · intro f hf p hp
          rcases houtside p hp with h0 | h0
          · exact hcross f hf p h0
          · have := hfub f hf
            omega
        · intro hyp p hp
          have hnotlim : ¬ (limited = true ∧ limitN = ec2) := by
            rcases hyp with h | h
            · rintro ⟨hl, _⟩
              rw [h] at hl
              simp at hl
            · have h' : ec2 < limitN := h
              rintro ⟨_, hln⟩
              omega
          have hte : target < e.due := by
            rcases hstop e r2 rfl with h | h
            · exact h
            · exact absurd h hnotlim
          rcases houtside p hp with h0 | h0
          · have hle : e.due ≤ p.due := by
              rcases List.mem_cons.mp h0 with rfl | h0'
              · exact Nat.le_refl _
              · exact (List.pairwise_cons.mp hrsort).1 p h0'
            omega
          · have heub := hrub e (by simp)
            omega
        · exact hrlSorted
        · refine hchain' target ?_
          have := hwf.2.2.2.2.2
          omega
      by_cases hlim2 : (limited && (limitN == ec2)) = true
      · rw [if_pos hlim2]
        exact hmain e.due
      · rw [if_neg hlim2]
        exact hmain l.now

/-! ## Scheduling lemmas -/

theorem getD_replicate {α} (n i : Nat) : (List.replicate n ([] : List α)).getD i [] = [] := by
  rcases Nat.lt_or_ge i n with h | h
  · simp [List.getD, List.getElem?_replicate, h]
  · exact getD_of_le _ _ (by simpa using h)

theorem freshLevel_wf {s bs : Nat} (hbs : 0 < bs) : LevelWF (freshLevel s bs) := by
  refine ⟨by simp [freshLevel], by show (0:Nat) < ringLength; decide, hbs, ?_, ?_, ?_⟩
  · intro i _ e he
    have he' : e ∈ (List.replicate ringLength ([] : Bucket)).getD i [] := he
    rw [getD_replicate] at he'
    simp at he'
  · intro i hi
    have hi' : i < 0 := hi
    simp at hi'
  · show s + 0 * bs ≤ s
    omega

/-- Contract of the fresh-level chain built on overflow past every existing
level: a well-formed chain, holding exactly the one scheduled record, whose
first level starts at the requested origin with the requested bucket size. -/
theorem freshChain_spec : ∀ (fuel s bs at_ id : Nat), at_ - s ≤ fuel → 0 < bs → s ≤ at_ →
    ChainInv (freshChain s bs at_ id) ∧
    (allEvents (freshChain s bs at_ id)).Perm [⟨at_, id⟩] ∧
    freshChain s bs at_ id ≠ [] ∧
    (∀ m, (freshChain s bs at_ id).head? = some m →
      m.bucketSize = bs ∧ m.start = s ∧ m.ringIdx = 0 ∧ m.now = s) := by
  intro fuel
  induction fuel with
  | zero =>
    intro s bs at_ id hfuel hbs hle
    have hse : s = at_ := by omega
    subst hse
    rw [freshChain]
    have hidx : (s - s) / bs = 0 := by simp
    rw [dif_neg (by rw [hidx]; simp [ringLength])]
    have hreplen : ((List.replicate ringLength ([] : Bucket)).set ((s - s) / bs)
        [⟨s, id⟩]).length = ringLength := by simp
    refine ⟨?_, ?_, by simp, ?_⟩
    · show LevelWF _
      refine ⟨hreplen, by show (0:Nat) < ringLength; decide, hbs, ?_, ?_, ?_⟩
      · intro i hi e he
        have he' : e ∈ ((List.replicate ringLength ([] : Bucket)).set ((s - s) / bs)
            [⟨s, id⟩]).getD i [] := he
        by_cases hieq : (s - s) / bs = i
        · rw [← hieq] at he' ⊢
          rw [getD_set_self _ _ _ _ (by simp [ringLength, hidx])] at he'
          simp only [List.mem_singleton] at he'
          subst he'
          rw [hidx]
          constructor
          · show s + 0 * bs ≤ s
            omega
          · show s < s + (0 + 1) * bs
            omega
        · rw [getD_set_ne _ _ _ hieq, getD_replicate] at he'
          simp at he'
      · intro i hi
        have hi' : i < 0 := hi
        simp at hi'
      · show s + 0 * bs ≤ s
        omega
    · show (((List.replicate ringLength ([] : Bucket)).set ((s - s) / bs)
        [⟨s, id⟩]).flatten ++ allEvents []).Perm [⟨s, id⟩]
      have h1 := flatten_set_perm (List.replicate ringLength ([] : Bucket)) ((s - s) / bs)
        [⟨s, id⟩] (by simp [ringLength, hidx])
      rw [getD_replicate] at h1
      have h2 : (List.replicate ringLength ([] : Bucket)).flatten = [] :=
        flatten_eq_nil_of_getD _ (fun i => getD_replicate _ i)
      rw [h2] at h1
      simpa [allEvents] using h1
    · intro m hm
      simp only [List.head?_cons, Option.some.injEq] at hm
      subst hm
      exact ⟨rfl, rfl, rfl, rfl⟩
  | succ fuel ih =>
    intro s bs at_ id hfuel hbs hle
    rw [freshChain]
    by_cases hidx : ringLength ≤ (at_ - s) / bs
    · rw [dif_pos hidx]
      have h32 : ringLength * bs ≤ at_ - s :=
        Nat.le_div_iff_mul_le hbs |>.mp (by simpa [Nat.mul_comm] using hidx)
      have hbs' : 0 < ringLength * bs := Nat.mul_pos (by decide) hbs
      have hle' : s + ringLength * bs ≤ at_ := by omega
      have hfuel' : at_ - (s + ringLength * bs) ≤ fuel := by
        simp only [ringLength] at h32 hbs' ⊢
        omega
      obtain ⟨ich, iperm, ine, ihead⟩ := ih (s + ringLength * bs) (ringLength * bs) at_ id
        hfuel' hbs' hle'
      refine ⟨?_, ?_, by simp, ?_⟩
      · cases hfc : freshChain (s + ringLength * bs) (ringLength * bs) at_ id with
        | nil => exact absurd hfc ine
        | cons m t =>
          rw [hfc] at ich iperm ihead
          obtain ⟨hmb, hms, hmi, _⟩ := ihead m rfl
          refine chainInv_cons (freshLevel_wf hbs) ?_ ?_ ich
          · intro m' hm'
            simp only [List.head?_cons, Option.some.injEq] at hm'
            subst hm'
            refine ⟨hmb, ?_⟩
            rw [hms, hmi, hmb]
            show s + ringLength * bs + 0 * (ringLength * bs) = s + ringLength * bs
            omega
          · intro _
            intro h0
            rw [h0] at iperm
            have := iperm.symm.eq_nil
            simp at this
      · have h2 : (freshLevel s bs).ring.flatten = [] :=
          flatten_eq_nil_of_getD _ (fun i => getD_replicate _ i)
        show ((freshLevel s bs).ring.flatten ++
          allEvents (freshChain (s + ringLength * bs) (ringLength * bs) at_ id)).Perm _
        rw [h2]
        simpa using iperm
      · intro m hm
        simp only [List.head?_cons, Option.some.injEq] at hm
        subst hm
        exact ⟨rfl, rfl, rfl, rfl⟩
    · rw [dif_neg hidx]
      have hidxlt : (at_ - s) / bs < ringLength := by omega
      have hlow : s + ((at_ - s) / bs) * bs ≤ at_ := div_range_lower hle
      have hupp : at_ < s + ((at_ - s) / bs + 1) * bs := div_range_upper at_ hbs
      have hreplen : ((List.replicate ringLength ([] : Bucket)).set ((at_ - s) / bs)
          [⟨at_, id⟩]).length = ringLength := by simp
      refine ⟨?_, ?_, by simp, ?_⟩
      · show LevelWF _
        refine ⟨hreplen, by show (0:Nat) < ringLength; decide, hbs, ?_, ?_, ?_⟩
        · intro i hi e he
          have he' : e ∈ ((List.replicate ringLength ([] : Bucket)).set ((at_ - s) / bs)
              [⟨at_, id⟩]).getD i [] := he
          by_cases hieq : (at_ - s) / bs = i
          · rw [← hieq] at he' ⊢
            rw [getD_set_self _ _ _ _ (by simpa using hidxlt)] at he'
            simp only [List.mem_singleton] at he'
            subst he'
            exact ⟨hlow, hupp⟩
          · rw [getD_set_ne _ _ _ hieq, getD_replicate] at he'
            simp at he'
        · intro i hi
          have hi' : i < 0 := hi
          simp at hi'
        · show s + 0 * bs ≤ s
          omega
      · show (((List.replicate ringLength ([] : Bucket)).set ((at_ - s) / bs)
          [⟨at_, id⟩]).flatten ++ allEvents []).Perm [⟨at_, id⟩]
        have h1 := flatten_set_perm (List.replicate ringLength ([] : Bucket)) ((at_ - s) / bs)
          [⟨at_, id⟩] (by simpa using hidxlt)
        rw [getD_replicate] at h1
        have h2 : (List.replicate ringLength ([] : Bucket)).flatten = [] :=
          flatten_eq_nil_of_getD _ (fun i => getD_replicate _ i)
        rw [h2] at h1
        simpa [allEvents] using h1
      · intro m hm
        simp only [List.head?_cons, Option.some.injEq] at hm
        subst hm
        exact ⟨rfl, rfl, rfl, rfl⟩

/-- Contract of the internal (unsorted, lower-case) `scheduleEventAt` on a
next chain: the chain invariant is preserved, the head level's scalar fields
are untouched, and exactly the one new record is added. -/
theorem scheduleEventAt_spec : ∀ {c : Wheel}, ChainInv c → ∀ (at_ id : Nat),
    (∀ h, c.head? = some h → h.start + h.ringIdx * h.bucketSize ≤ at_) →
    c ≠ [] →
    ChainInv (scheduleEventAt c at_ id) ∧
    (allEvents (scheduleEventAt c at_ id)).Perm (⟨at_, id⟩ :: allEvents c) ∧
    scheduleEventAt c at_ id ≠ [] ∧
    (∀ h h', c.head? = some h → (scheduleEventAt c at_ id).head? = some h' →
      h'.ringIdx = h.ringIdx ∧ h'.now = h.now ∧ h'.start = h.start ∧
      h'.bucketSize = h.bucketSize) := by
  intro c
  induction c with
  | nil =>
    intro _ _ _ _ hne
    exact absurd rfl hne
  | cons l rest ihc =>
    intro hc at_ id hge _
    have hwf : LevelWF l := chainInv_head hc
    have hbs : 0 < l.bucketSize := hwf.2.2.1
    have hge' : l.start + l.ringIdx * l.bucketSize ≤ at_ := hge l rfl
    have hsle : l.start ≤ at_ := by omega
    simp only [scheduleEventAt]
    by_cases hidx : ringLength ≤ (at_ - l.start) / l.bucketSize
    · rw [if_pos hidx]
      have h32 : l.start + ringLength * l.bucketSize ≤ at_ := by
        have := Nat.le_div_iff_mul_le hbs |>.mp (by simpa [Nat.mul_comm] using hidx)
        omega
      cases rest with
      | nil =>
        have hfuel : at_ - (l.start + ringLength * l.bucketSize) ≤ at_ := Nat.sub_le _ _
        have hbs' : 0 < ringLength * l.bucketSize := Nat.mul_pos (by decide) hbs
        obtain ⟨fch, fperm, fne, fhead⟩ := freshChain_spec at_
          (l.start + ringLength * l.bucketSize) (ringLength * l.bucketSize) at_ id
          hfuel hbs' h32
        refine ⟨?_, ?_, by simp, ?_⟩
        · cases hfc : freshChain (l.start + ringLength * l.bucketSize)
            (ringLength * l.bucketSize) at_ id with
          | nil => exact absurd hfc fne
          | cons m t =>
            rw [hfc] at fch fperm fhead
            obtain ⟨hmb, hms, hmi, _⟩ := fhead m rfl
            refine chainInv_cons hwf ?_ ?_ fch
            · intro m' hm'
              simp only [List.head?_cons, Option.some.injEq] at hm'
              subst hm'
              refine ⟨hmb, ?_⟩
              rw [hms, hmi]
              omega
            · intro _ h0
              rw [h0] at fperm
              have := fperm.symm.eq_nil
              simp at this
        · show (l.ring.flatten ++ allEvents (freshChain _ _ at_ id)).Perm
            (⟨at_, id⟩ :: (l.ring.flatten ++ allEvents []))
          have h1 := fperm.append_left l.ring.flatten
          have h2 : (l.ring.flatten ++ [(⟨at_, id⟩ : EventNode)]).Perm
              ([⟨at_, id⟩] ++ l.ring.flatten) := List.perm_append_comm
          have := h1.trans h2
          simpa [allEvents] using this
        · intro h h' hh hh'
          simp only [List.head?_cons, Option.some.injEq] at hh hh'
          subst hh; subst hh'
          exact ⟨rfl, rfl, rfl, rfl⟩
      | cons m t =>
        have hlk : linked l m := chainInv_link hc m rfl
        have hch2 : ChainInv (m :: t) := chainInv_tail hc
        have hge2 : ∀ h, (m :: t).head? = some h →
            h.start + h.ringIdx * h.bucketSize ≤ at_ := by
          intro h hh
          simp only [List.head?_cons, Option.some.injEq] at hh
          subst hh
          rw [hlk.2]
          exact h32
        obtain ⟨ich, iperm, ine, ihead⟩ := ihc hch2 at_ id hge2 (by simp)
        refine ⟨?_, ?_, by simp, ?_⟩
        · cases hsc : scheduleEventAt (m :: t) at_ id with
          | nil => exact absurd hsc ine
          | cons m' t' =>
            rw [hsc] at ich iperm ihead
            obtain ⟨hmi, _, hms, hmb⟩ := ihead m m' rfl rfl
            refine chainInv_cons hwf ?_ ?_ ich
            · intro m'' hm''
              simp only [List.head?_cons, Option.some.injEq] at hm''
              subst hm''
              refine ⟨by rw [hmb]; exact hlk.1, ?_⟩
              rw [hms, hmi, hmb]
              exact hlk.2
            · intro _ h0
              rw [h0] at iperm
              have := iperm.symm.eq_nil
              simp at this
        · show (l.ring.flatten ++ allEvents (scheduleEventAt (m :: t) at_ id)).Perm
            (⟨at_, id⟩ :: (l.ring.flatten ++ allEvents (m :: t)))
          have h1 := iperm.append_left l.ring.flatten
          have h2 : (l.ring.flatten ++ (⟨at_, id⟩ :: allEvents (m :: t))).Perm
              (⟨at_, id⟩ :: (l.ring.flatten ++ allEvents (m :: t))) := List.perm_middle
          exact h1.trans h2
        · intro h h' hh hh'
          simp only [List.head?_cons, Option.some.injEq] at hh hh'
          subst hh; subst hh'
          exact ⟨rfl, rfl, rfl, rfl⟩
    · rw [if_neg hidx]
      have hidxlt : (at_ - l.start) / l.bucketSize < ringLength := by omega
      have hidxlen : (at_ - l.start) / l.bucketSize < l.ring.length := by
        rw [hwf.1]; omega
      have hrige : l.ringIdx ≤ (at_ - l.start) / l.bucketSize := by
        refine Nat.le_div_iff_mul_le hbs |>.mpr ?_
        have : l.ringIdx * l.bucketSize = l.bucketSize * l.ringIdx := Nat.mul_comm _ _
        omega
      refine ⟨?_, ?_, by simp, ?_⟩
      · refine chainInv_cons ?_ ?_ (chainInv_next_nonempty hc) (chainInv_tail hc)
        · refine ⟨by simpa using hwf.1, hwf.2.1, hbs, ?_, ?_, hwf.2.2.2.2.2⟩
          · intro i hi x hx
            have hx' : x ∈ (l.ring.set ((at_ - l.start) / l.bucketSize)
                (⟨at_, id⟩ :: l.ring.getD ((at_ - l.start) / l.bucketSize) [])).getD i [] := hx
            by_cases hieq : (at_ - l.start) / l.bucketSize = i
            · subst hieq
              rw [getD_set_self _ _ _ _ hidxlen] at hx'
              rcases List.mem_cons.mp hx' with rfl | hx''
              · exact ⟨div_range_lower hsle, div_range_upper at_ hbs⟩
              · exact hwf.2.2.2.1 _ hidxlt x hx''
            · rw [getD_set_ne _ _ _ hieq] at hx'
              exact hwf.2.2.2.1 i hi x hx'
          · intro i hilt
            have hilt' : i < l.ringIdx := hilt
            have hieq : (at_ - l.start) / l.bucketSize ≠ i := by omega
            show (l.ring.set _ _).getD i [] = []
            rw [getD_set_ne _ _ _ hieq]
            exact hwf.2.2.2.2.1 i hilt'
        · intro m hm
          exact chainInv_link hc m hm
      · show ((l.ring.set _ _).flatten ++ allEvents rest).Perm
          (⟨at_, id⟩ :: (l.ring.flatten ++ allEvents rest))
        have h1 := flatten_set_perm l.ring ((at_ - l.start) / l.bucketSize)
          (⟨at_, id⟩ :: l.ring.getD ((at_ - l.start) / l.bucketSize) []) hidxlen
        have h2 : (l.ring.flatten ++ (⟨at_, id⟩ ::
            l.ring.getD ((at_ - l.start) / l.bucketSize) [])).Perm
            ((⟨at_, id⟩ :: l.ring.flatten) ++
              l.ring.getD ((at_ - l.start) / l.bucketSize) []) := by
          have := (@List.perm_append_comm _ l.ring.flatten
            [(⟨at_, id⟩ : EventNode)]).append_right
            (l.ring.getD ((at_ - l.start) / l.bucketSize) [])
          simpa [List.append_assoc] using this
        have h3 := h1.trans h2
        have h4 := (List.perm_append_right_iff _).mp h3
        exact h4.append_right (allEvents rest)
      · intro h h' hh hh'
        simp only [List.head?_cons, Option.some.injEq] at hh hh'
        subst hh; subst hh'
        exact ⟨rfl, rfl, rfl, rfl⟩

/-- `ScheduleEventAt` fails with `ScheduledInPast` exactly when the due time
is strictly before the wheel's clock. -/
theorem ScheduleEventAt_error_iff (l : Level) (rest : Wheel) (at_ id : Nat) :
    ScheduleEventAt (l :: rest) at_ id = .error .ScheduledInPast ↔ at_ < l.now := by
  simp only [ScheduleEventAt]
  by_cases h : at_ < l.now
  · simp [h]
  · simp [h]

/-- Contract of a successful `ScheduleEventAt`: the invariant is preserved,
the clock does not move, and exactly the one new record is enqueued (no
callback is invoked: scheduling produces no fired trace by construction). -/
theorem ScheduleEventAt_ok_spec {l : Level} {rest c' : Wheel} {at_ id : Nat}
    (hinv : Inv (l :: rest)) (hok : ScheduleEventAt (l :: rest) at_ id = .ok c') :
    Inv c' ∧ Now c' = l.now ∧ (allEvents c').Perm (⟨at_, id⟩ :: allEvents (l :: rest)) ∧
    l.now ≤ at_ := by
  obtain ⟨hsort, hchain⟩ := hinv
  have hwf : LevelWF l := chainInv_head hchain
  have hbs : 0 < l.bucketSize := hwf.2.2.1
  by_cases hlt : at_ < l.now
  · simp [ScheduleEventAt, hlt] at hok
  · have hnle : l.now ≤ at_ := not_lt.mp hlt
    have hge' : l.start + l.ringIdx * l.bucketSize ≤ at_ :=
      le_trans hwf.2.2.2.2.2 hnle
    have hsle : l.start ≤ at_ := by omega
    by_cases hidx : ringLength ≤ (at_ - l.start) / l.bucketSize
    · obtain ⟨ich, iperm, ine, _⟩ := scheduleEventAt_spec hchain at_ id
        (by intro h hh; simp only [List.head?_cons, Option.some.injEq] at hh; subst hh
            exact hge') (by simp)
      cases rest with
      | nil =>
        have hint : scheduleEventAt (l :: ([] : Wheel)) at_ id =
            l :: freshChain (l.start + ringLength * l.bucketSize)
              (ringLength * l.bucketSize) at_ id := by
          simp only [scheduleEventAt, if_pos hidx]
        have hc' : c' = scheduleEventAt (l :: ([] : Wheel)) at_ id := by
          simp only [ScheduleEventAt, if_neg hlt, if_pos hidx] at hok
          rw [hint]
          exact (Except.ok.inj hok).symm
        subst hc'
        rw [hint] at iperm ich ⊢
        exact ⟨⟨hsort, ich⟩, rfl, iperm, hnle⟩
      | cons m t =>
        have hint : scheduleEventAt (l :: m :: t) at_ id =
            l :: scheduleEventAt (m :: t) at_ id := by
          simp only [scheduleEventAt, if_pos hidx]
        have hc' : c' = scheduleEventAt (l :: m :: t) at_ id := by
          simp only [ScheduleEventAt, if_neg hlt, if_pos hidx] at hok
          rw [hint]
          exact (Except.ok.inj hok).symm
        subst hc'
        rw [hint] at iperm ich ⊢
        exact ⟨⟨hsort, ich⟩, rfl, iperm, hnle⟩
    · have hc' : c' = (⟨l.ring.set ((at_ - l.start) / l.bucketSize) (bucketAdd ⟨at_, id⟩ (l.ring.getD ((at_ - l.start) / l.bucketSize) [])), l.ringIdx, l.now, l.start, l.bucketSize⟩ : Level) :: rest := by
        simp only [ScheduleEventAt, if_neg hlt, if_neg hidx] at hok
        exact (Except.ok.inj hok).symm
      subst hc'
      have hidxlt : (at_ - l.start) / l.bucketSize < ringLength := by omega
      have hidxlen : (at_ - l.start) / l.bucketSize < l.ring.length := by
        rw [hwf.1]; omega
      have hrige : l.ringIdx ≤ (at_ - l.start) / l.bucketSize := by
        refine Nat.le_div_iff_mul_le hbs |>.mpr ?_
        have : l.ringIdx * l.bucketSize = l.bucketSize * l.ringIdx := Nat.mul_comm _ _
        omega
      refine ⟨⟨?_, ?_⟩, rfl, ?_, hnle⟩
      · intro i hi
        show ((l.ring.set _ _).getD i []).Pairwise _
        by_cases hieq : (at_ - l.start) / l.bucketSize = i
        · subst hieq
          rw [getD_set_self _ _ _ _ hidxlen]
          exact bucketAdd_sorted (hsort _ hidxlt)
        · rw [getD_set_ne _ _ _ hieq]
          exact hsort i hi
      · refine chainInv_cons ?_ ?_ (chainInv_next_nonempty hchain) (chainInv_tail hchain)
        · refine ⟨by simpa using hwf.1, hwf.2.1, hbs, ?_, ?_, hwf.2.2.2.2.2⟩
          · intro i hi x hx
            have hx' : x ∈ (l.ring.set ((at_ - l.start) / l.bucketSize)
                (bucketAdd ⟨at_, id⟩
                  (l.ring.getD ((at_ - l.start) / l.bucketSize) []))).getD i [] := hx
            by_cases hieq : (at_ - l.start) / l.bucketSize = i
            · subst hieq
              rw [getD_set_self _ _ _ _ hidxlen] at hx'
              rcases mem_bucketAdd.mp hx' with rfl | hx''
              · exact ⟨div_range_lower hsle, div_range_upper at_ hbs⟩
              · exact hwf.2.2.2.1 _ hidxlt x hx''
            · rw [getD_set_ne _ _ _ hieq] at hx'
              exact hwf.2.2.2.1 i hi x hx'
          · intro i hilt
            have hilt' : i < l.ringIdx := hilt
            have hieq : (at_ - l.start) / l.bucketSize ≠ i := by omega
            show (l.ring.set _ _).getD i [] = []
            rw [getD_set_ne _ _ _ hieq]
            exact hwf.2.2.2.2.1 i hilt'
        · intro m hm
          exact chainInv_link hchain m hm
      · show ((l.ring.set _ _).flatten ++ allEvents rest).Perm
          (⟨at_, id⟩ :: (l.ring.flatten ++ allEvents rest))
        have h1 := flatten_set_perm l.ring ((at_ - l.start) / l.bucketSize)
          (bucketAdd ⟨at_, id⟩ (l.ring.getD ((at_ - l.start) / l.bucketSize) [])) hidxlen
        have h2 : (l.ring.flatten ++ bucketAdd ⟨at_, id⟩
            (l.ring.getD ((at_ - l.start) / l.bucketSize) [])).Perm
            (l.ring.flatten ++ (⟨at_, id⟩ ::
              l.ring.getD ((at_ - l.start) / l.bucketSize) [])) :=
          (bucketAdd_perm _ _).append_left _
        have h3 : (l.ring.flatten ++ (⟨at_, id⟩ ::
            l.ring.getD ((at_ - l.start) / l.bucketSize) [])).Perm
            ((⟨at_, id⟩ :: l.ring.flatten) ++
              l.ring.getD ((at_ - l.start) / l.bucketSize) []) := by
          have := (@List.perm_append_comm _ l.ring.flatten
            [(⟨at_, id⟩ : EventNode)]).append_right
            (l.ring.getD ((at_ - l.start) / l.bucketSize) [])
          simpa [List.append_assoc] using this
        have h4 := (h1.trans h2).trans h3
        have h5 := (List.perm_append_right_iff _).mp h4
        exact h5.append_right (allEvents rest)

/-! ## Public `AdvanceTo` and reachability -/

/-- A no-op backward `AdvanceTo`: a target before the clock returns the state
unchanged, a zero count and an empty fired trace. -/
theorem AdvanceTo_backward {l : Level} {rest : Wheel} {target : Nat} {limit : Int}
    (hlt : target < l.now) :
    AdvanceTo (l :: rest) target limit = (l :: rest, 0, []) := by
  simp [AdvanceTo, hlt]

/-- Forward `AdvanceTo` satisfies the loop contract (with the model's
iteration budget shown sufficient) and has the stated shape. -/
theorem AdvanceTo_spec {l : Level} {rest : Wheel} (hinv : Inv (l :: rest))
    (target : Nat) (limit : Int) (hle : l.now ≤ target) :
    LoopPost target (decide (0 < limit)) limit.toNat l rest 0
      (advanceLoop target (decide (0 < limit)) limit.toNat (target + 1) l rest 0) ∧
    AdvanceTo (l :: rest) target limit =
      ({ (advanceLoop target (decide (0 < limit)) limit.toNat (target + 1) l rest 0).1
          with now := target } ::
        (advanceLoop target (decide (0 < limit)) limit.toNat (target + 1) l rest 0).2.1,
       (advanceLoop target (decide (0 < limit)) limit.toNat (target + 1) l rest 0).2.2.1,
       (advanceLoop target (decide (0 < limit)) limit.toNat (target + 1) l rest 0).2.2.2) := by
  obtain ⟨hsort, hchain⟩ := hinv
  have hwf := chainInv_head hchain
  have hbs := hwf.2.2.1
  have hbound : target < l.start + l.ringIdx * l.bucketSize + (target + 1) * l.bucketSize := by
    have h1 : target + 1 ≤ (target + 1) * l.bucketSize := Nat.le_mul_of_pos_right _ hbs
    omega
  refine ⟨advanceLoop_spec _ _ _ _ _ _ _ hsort hchain hle hbound (fun _ => Nat.zero_le _), ?_⟩
  simp only [AdvanceTo]
  rw [if_neg (not_lt.mpr hle)]

/-- `AdvanceTo` preserves the wheel invariant. -/
theorem AdvanceTo_inv {c : Wheel} (hinv : Inv c) (target : Nat) (limit : Int) :
    Inv (AdvanceTo c target limit).1 := by
  cases c with
  | nil => exact absurd hinv (by simp [Inv])
  | cons l rest =>
    by_cases hlt : target < l.now
    · rw [AdvanceTo_backward hlt]
      exact hinv
    · have hle := not_lt.mp hlt
      obtain ⟨post, heq⟩ := AdvanceTo_spec hinv target limit hle
      rw [heq]
      obtain ⟨_, _, _, _, _, _, _, _, rsort, rchain⟩ := post
      exact ⟨fun i hi => rsort i hi, rchain⟩

/-- Every reachable state satisfies the full wheel invariant. -/
theorem reachable_inv : ∀ {c : Wheel}, Reachable c → Inv c := by
  intro c h
  induction h with
  | new startAt bs hbs =>
    refine ⟨?_, ?_⟩
    · intro i _
      show ((List.replicate ringLength ([] : Bucket)).getD i []).Pairwise _
      rw [getD_replicate]
      exact List.Pairwise.nil
    · exact freshLevel_wf hbs
  | sched at_ id hc hok ih =>
    rename_i c0 c1
    cases c0 with
    | nil => exact absurd ih (by simp [Inv])
    | cons l rest => exact (ScheduleEventAt_ok_spec ih hok).1
  | adv target limit hc ih =>
    exact AdvanceTo_inv ih target limit

/-- Reachable wheels are nonempty chains. -/
theorem reachable_ne_nil {c : Wheel} (h : Reachable c) : c ≠ [] := by
  intro h0
  have := reachable_inv h
  rw [h0] at this
  simp [Inv] at this

/-- A successful `ScheduleEventAt` never moves the clock (no invariant
needed: every branch keeps the head level's `now` field). -/
theorem schedule_now_eq : ∀ {c : Wheel} {at_ id : Nat} {c' : Wheel},
    ScheduleEventAt c at_ id = .ok c' → Now c' = Now c := by
  intro c at_ id c' hok
  cases c with
  | nil => simp [ScheduleEventAt] at hok
  | cons l rest =>
    by_cases hlt : at_ < l.now
    · simp [ScheduleEventAt, hlt] at hok
    · by_cases hidx : ringLength ≤ (at_ - l.start) / l.bucketSize
      · cases rest with
        | nil =>
          simp only [ScheduleEventAt, if_neg hlt, if_pos hidx] at hok
          rw [← Except.ok.inj hok]
          rfl
        | cons m t =>
          simp only [ScheduleEventAt, if_neg hlt, if_pos hidx] at hok
          rw [← Except.ok.inj hok]
          rfl
      · simp only [ScheduleEventAt, if_neg hlt, if_neg hidx] at hok
        rw [← Except.ok.inj hok]
        rfl

/-- `AdvanceTo` with a target at or after the clock always reports the target
afterwards, for every limit (the clock assignment at the end of the Go
function is unconditional). -/
theorem AdvanceTo_now_eq (l : Level) (rest : Wheel) (target : Nat) (limit : Int)
    (hle : l.now ≤ target) : Now (AdvanceTo (l :: rest) target limit).1 = target := by
  simp only [AdvanceTo]
  rw [if_neg (not_lt.mpr hle)]
  rfl

/-- Every single operation is monotone on the reported clock, on every state
(well formed or not). -/
theorem now_le_applyOp (c : Wheel) (op : Op) : Now c ≤ Now (applyOp c op).1 := by
  cases op with
  | sched at_ id =>
    simp only [applyOp]
    cases hok : ScheduleEventAt c at_ id with
    | ok c' =>
      rw [schedule_now_eq hok]
    | error e => exact Nat.le_refl _
  | adv target limit =>
    cases c with
    | nil => exact Nat.le_refl _
    | cons l rest =>
      show Now (l :: rest) ≤ Now (AdvanceTo (l :: rest) target limit).1
      by_cases hlt : target < l.now
      · rw [AdvanceTo_backward hlt]
      · rw [AdvanceTo_now_eq l rest target limit (not_lt.mp hlt)]
        exact not_lt.mp hlt

theorem now_le_runOps (c : Wheel) (ops : List Op) : Now c ≤ Now (runOps c ops).1 := by
  induction ops generalizing c with
  | nil => exact Nat.le_refl _
  | cons op ops ih =>
    exact le_trans (now_le_applyOp c op) (ih (applyOp c op).1)

/-- Contract of one operation starting from a reachable state: reachability
is preserved; the callbacks it invokes fire in ascending due-time order, are
all due at or before the new clock, were all pending before, and are all due
at or before everything that stays pending; and nothing newly pending is due
before the old clock. -/
theorem applyOp_spec {c : Wheel} (hr : Reachable c) (op : Op) :
    Reachable (applyOp c op).1 ∧
    (applyOp c op).2.Pairwise (fun a b => a.due ≤ b.due) ∧
    (∀ f ∈ (applyOp c op).2, f.due ≤ Now (applyOp c op).1) ∧
    (∀ f ∈ (applyOp c op).2, ∀ p ∈ allEvents (applyOp c op).1, f.due ≤ p.due) ∧
    (∀ f ∈ (applyOp c op).2, f ∈ allEvents c) ∧
    (∀ y ∈ allEvents (applyOp c op).1, y ∈ allEvents c ∨ Now c ≤ y.due) := by
  have hinv := reachable_inv hr
  cases op with
  | sched at_ id =>
    simp only [applyOp]
    cases hok : ScheduleEventAt c at_ id with
    | ok c' =>
      cases c with
      | nil => exact absurd hinv (by simp [Inv])
      | cons l rest =>
        obtain ⟨_, _, hperm, hnle⟩ := ScheduleEventAt_ok_spec hinv hok
        refine ⟨Reachable.sched at_ id hr hok, by simp, by simp, by simp, by simp, ?_⟩
        intro y hy
        have := hperm.subset hy
        rcases List.mem_cons.mp this with rfl | hy'
        · exact Or.inr hnle
        · exact Or.inl hy'
    | error e =>
      refine ⟨hr, by simp, by simp, by simp, by simp, fun y hy => Or.inl hy⟩
  | adv target limit =>
    cases c with
    | nil => exact absurd hinv (by simp [Inv])
    | cons l rest =>
      by_cases hlt : target < l.now
      · have hb := @AdvanceTo_backward l rest target limit hlt
        simp only [applyOp, hb]
        refine ⟨?_, by simp, by simp, by simp, by simp, fun y hy => Or.inl hy⟩
        have := Reachable.adv target limit hr
        rw [hb] at this
        exact this
      · have hle := not_lt.mp hlt
        obtain ⟨post, heq⟩ := AdvanceTo_spec hinv target limit hle
        obtain ⟨_, hdue, hsorted, hperm, hlow, _, _, _, _, _⟩ := post
        simp only [applyOp, heq]
        have hnoweq : Now (AdvanceTo (l :: rest) target limit).1 = target :=
          AdvanceTo_now_eq l rest target limit hle
        rw [heq] at hnoweq
        refine ⟨?_, hsorted, ?_, ?_, ?_, ?_⟩
        · have := Reachable.adv target limit hr
          rw [heq] at this
          exact this
        · intro f hf
          rw [hnoweq]
          exact hdue f hf
        · intro f hf p hp
          exact hlow f hf p hp
        · intro f hf
          exact hperm.symm.subset (List.mem_append.mpr (Or.inl hf))
        · intro y hy
          exact Or.inl (hperm.symm.subset (List.mem_append.mpr (Or.inr hy)))

/-- Contract of a run of operations from a reachable state: the full
invocation trace is sorted by due time, and every invoked callback was
pending initially or was scheduled at or after the initial clock. -/
theorem runOps_spec : ∀ (ops : List Op) {c : Wheel}, Reachable c →
    Reachable (runOps c ops).1 ∧
    (runOps c ops).2.Pairwise (fun a b => a.due ≤ b.due) ∧
    (∀ y ∈ (runOps c ops).2, y ∈ allEvents c ∨ Now c ≤ y.due) := by
  intro ops
  induction ops with
  | nil =>
    intro c hr
    exact ⟨hr, by simp [runOps], by simp [runOps]⟩
  | cons op ops ih =>
    intro c hr
    obtain ⟨hr1, hops, hfnow, hflow, hfmem, hymem⟩ := applyOp_spec hr op
    obtain ⟨hr2, hsort2, hmem2⟩ := ih hr1
    refine ⟨hr2, ?_, ?_⟩
    · show ((applyOp c op).2 ++ (runOps (applyOp c op).1 ops).2).Pairwise _
      refine List.pairwise_append.mpr ⟨hops, hsort2, ?_⟩
      intro x hx y hy
      rcases hmem2 y hy with hy' | hy'
      · exact hflow x hx y hy'
      · exact le_trans (hfnow x hx) hy'
    · intro y hy
      rcases List.mem_append.mp hy with hy' | hy'
      · exact Or.inl (hfmem y hy')
      · rcases hmem2 y hy' with h0 | h0
        · rcases hymem y h0 with h1 | h1
          · exact Or.inl h1
          · exact Or.inr h1
        · exact Or.inr (le_trans (now_le_applyOp c op) h0)

/-! ## Due-event accounting for repeated limited advances -/

theorem dueList_perm_of_advance {l : Level} {rest : Wheel} (hinv : Inv (l :: rest))
    (target : Nat) (limit : Int) (hle : l.now ≤ target) :
    (dueList (l :: rest) target).Perm
      ((AdvanceTo (l :: rest) target limit).2.2 ++
        dueList (AdvanceTo (l :: rest) target limit).1 target) := by
  obtain ⟨post, heq⟩ := AdvanceTo_spec hinv target limit hle
  obtain ⟨_, hdue, _, hperm, _, _, _, _, _, _⟩ := post
  have hf := hperm.filter (fun e => decide (e.due ≤ target))
  rw [List.filter_append] at hf
  have hff : List.filter (fun e => decide (e.due ≤ target))
      (advanceLoop target (decide (0 < limit)) limit.toNat (target + 1) l rest 0).2.2.2 =
      (advanceLoop target (decide (0 < limit)) limit.toNat (target + 1) l rest 0).2.2.2 :=
    List.filter_eq_self.mpr (fun a ha => by simpa using hdue a ha)
  rw [hff] at hf
  rw [heq]
  show (List.filter (fun e => decide (e.due ≤ target)) (allEvents (l :: rest))).Perm
    ((advanceLoop target (decide (0 < limit)) limit.toNat (target + 1) l rest 0).2.2.2 ++
      List.filter (fun e => decide (e.due ≤ target))
        (allEvents ((advanceLoop target (decide (0 < limit)) limit.toNat
            (target + 1) l rest 0).1 ::
          (advanceLoop target (decide (0 < limit)) limit.toNat (target + 1) l rest 0).2.1)))
  exact hf

theorem advanceTo_progress {l : Level} {rest : Wheel} (hinv : Inv (l :: rest))
    {target : Nat} {n : Int} (hn : 0 < n) (hle : l.now ≤ target)
    (hne : dueList (l :: rest) target ≠ []) :
    (dueList (AdvanceTo (l :: rest) target n).1 target).length <
      (dueList (l :: rest) target).length := by
  obtain ⟨post, heq⟩ := AdvanceTo_spec hinv target n hle
  obtain ⟨hec, hdue, _, hperm, _, _, hstop, _, _, _⟩ := post
  have hsplit := dueList_perm_of_advance hinv target n hle
  have hlensplit := hsplit.length_eq
  rw [List.length_append] at hlensplit
  rcases hfe : (AdvanceTo (l :: rest) target n).2.2 with _ | ⟨f, fs⟩
  · exfalso
    have hecz : (AdvanceTo (l :: rest) target n).2.1 = 0 := by
      rw [heq] at hfe ⊢
      rw [hec, hfe]
      simp
    have hlim : (0 : Nat) < n.toNat := by
      rcases n with n | n
      · cases n with
        | zero => exact absurd hn (by decide)
        | succ k => simp [Int.toNat]
      · exact absurd hn (by simp)
    have hstop' := hstop (by
      right
      rw [heq] at hecz
      rw [hecz]
      exact hlim)
    have hdueempty : dueList (AdvanceTo (l :: rest) target n).1 target = [] := by
      rw [heq]
      refine List.filter_eq_nil_iff.mpr ?_
      intro a ha
      have := hstop' a ha
      simp only [decide_eq_true_eq]
      omega
    rw [hfe, hdueempty] at hsplit
    exact hne (hsplit.eq_nil)
  · rw [hfe] at hlensplit
    simp only [List.length_cons] at hlensplit
    omega

theorem iterAdvance_complete {target : Nat} {n : Int} (hn : 0 < n) :
    ∀ (k : Nat) {c : Wheel}, Reachable c → Now c ≤ target →
    (dueList c target).length ≤ k →
    ((iterAdvanceTo target n k c).2).Perm (dueList c target) ∧
    dueList (iterAdvanceTo target n k c).1 target = [] := by
  intro k
  induction k with
  | zero =>
    intro c hr hle hlen
    have h0 : dueList c target = [] := List.eq_nil_of_length_eq_zero (by omega)
    exact ⟨by rw [h0]; exact List.Perm.refl _, by simpa [iterAdvanceTo] using h0⟩
  | succ k ih =>
    intro c hr hle hlen
    have hinv := reachable_inv hr
    cases c with
    | nil => exact absurd hinv (by simp [Inv])
    | cons l rest =>
      have hle' : l.now ≤ target := hle
      have hsplit := dueList_perm_of_advance hinv target n hle'
      have hr1 : Reachable (AdvanceTo (l :: rest) target n).1 := by
        have := Reachable.adv target n hr
        exact this
      have hnow1 : Now (AdvanceTo (l :: rest) target n).1 = target :=
        AdvanceTo_now_eq l rest target n hle'
      by_cases hne : dueList (l :: rest) target = []
      · have hboth : (AdvanceTo (l :: rest) target n).2.2 = [] ∧
            dueList (AdvanceTo (l :: rest) target n).1 target = [] := by
          rw [hne] at hsplit
          exact List.append_eq_nil.mp hsplit.symm.eq_nil
        obtain ⟨ih1, ih2⟩ := ih hr1 (le_of_eq hnow1) (by rw [hboth.2]; simp)
        refine ⟨?_, ih2⟩
        show ((AdvanceTo (l :: rest) target n).2.2 ++ _).Perm _
        rw [hboth.1, hne]
        simpa [hboth.2] using ih1
      · have hprog := advanceTo_progress hinv hn hle' hne
        obtain ⟨ih1, ih2⟩ := ih hr1 (le_of_eq hnow1) (by omega)
        refine ⟨?_, ih2⟩
        show ((AdvanceTo (l :: rest) target n).2.2 ++ _).Perm _
        have h1 := ih1.append_left (AdvanceTo (l :: rest) target n).2.2
        exact h1.trans hsplit.symm

/-! ## Final helper lemmas for the claims -/

theorem inv_chain {c : Wheel} (h : Inv c) : ChainInv c := by
  cases c with
  | nil => simp [Inv] at h
  | cons l rest => exact h.2

theorem chainInv_mem_wf : ∀ {c : Wheel}, ChainInv c → ∀ l ∈ c, LevelWF l := by
  intro c
  induction c with
  | nil => intro _ l hl; simp at hl
  | cons x rest ih =>
    intro h l hl
    rcases List.mem_cons.mp hl with rfl | hl'
    · exact chainInv_head h
    · exact ih (chainInv_tail h) l hl'

/-- An unlimited forward `AdvanceTo` fires exactly the due events: the fired
trace is a permutation of the due list, nothing due remains, and the pending
multiset splits into fired and remaining. -/
theorem advanceTo_unlimited_dueList {c : Wheel} (hr : Reachable c) {target : Nat}
    (hle : Now c ≤ target) :
    ((AdvanceTo c target 0).2.2).Perm (dueList c target) ∧
    dueList (AdvanceTo c target 0).1 target = [] ∧
    (allEvents c).Perm ((AdvanceTo c target 0).2.2 ++ allEvents (AdvanceTo c target 0).1) := by
  have hinv := reachable_inv hr
  cases c with
  | nil => exact absurd hinv (by simp [Inv])
  | cons l rest =>
    have hle' : l.now ≤ target := hle
    have hsplit := dueList_perm_of_advance hinv target 0 hle'
    obtain ⟨post, heq⟩ := AdvanceTo_spec hinv target 0 hle'
    obtain ⟨_, _, _, hperm, _, _, hstop, _, _, _⟩ := post
    have hstop' := hstop (Or.inl (by decide))
    have hempty : dueList (AdvanceTo (l :: rest) target 0).1 target = [] := by
      rw [heq]
      refine List.filter_eq_nil_iff.mpr ?_
      intro a ha
      have := hstop' a ha
      simp only [decide_eq_true_eq]
      omega
    refine ⟨?_, hempty, ?_⟩
    · rw [hempty] at hsplit
      simpa using hsplit.symm
    · rw [heq]
      show (allEvents (l :: rest)).Perm
        ((advanceLoop target (decide ((0:Int) < 0)) (Int.toNat 0) (target + 1) l rest 0).2.2.2 ++
          allEvents ((advanceLoop target (decide ((0:Int) < 0)) (Int.toNat 0)
              (target + 1) l rest 0).1 ::
            (advanceLoop target (decide ((0:Int) < 0)) (Int.toNat 0) (target + 1) l rest 0).2.1))
      exact hperm

theorem c3mid_reachable : Reachable c3mid :=
  Reachable.sched 0 0 (Reachable.new 0 1 (by decide)) rfl

theorem c3sched_reachable : Reachable c3sched :=
  Reachable.sched 1 1 c3mid_reachable rfl

theorem c3after_reachable : Reachable c3after :=
  Reachable.adv 5 1 c3sched_reachable

/-! ## The claims -/

/-- C1: for every reachable wheel and every target at or after the reported
clock, an unlimited `AdvanceTo` invokes exactly the pending callbacks due at or
before the target — the fired trace is a permutation of that due set (each
fires exactly once, none due later fires), and nothing due at or before the
target remains pending afterwards, including callbacks stored in coarser
levels that had to cascade down first. -/
theorem C1_unlimited_fires_exactly_due {c : Wheel} (hr : Reachable c) {target : Nat}
    (hle : Now c ≤ target) :
    ((AdvanceTo c target 0).2.2).Perm (dueList c target) ∧
    dueList (AdvanceTo c target 0).1 target = [] := by
  obtain ⟨h1, h2, _⟩ := advanceTo_unlimited_dueList hr hle
  exact ⟨h1, h2⟩

theorem C1_witness :
    ((AdvanceTo c3sched 2 0).2.2).Perm (dueList c3sched 2) ∧
    dueList (AdvanceTo c3sched 2 0).1 2 = [] :=
  C1_unlimited_fires_exactly_due c3sched_reachable (by decide)

/-- C2: across any sequence of public operations on a freshly created wheel,
the full invocation trace is sorted by due time — a callback with an earlier
due time is never invoked after one with a later due time, so callbacks with
pairwise distinct due times fire in strictly ascending due-time order. -/
theorem C2_firing_order (startAt bs : Nat) (hbs : 0 < bs) (ops : List Op) :
    ((runOps (NewTimerWheel startAt bs) ops).2).Pairwise (fun a b => a.due ≤ b.due) :=
  (runOps_spec ops (Reachable.new startAt bs hbs)).2.1

theorem C2_witness :
    ((runOps (NewTimerWheel 0 1) [Op.sched 1 1, Op.sched 0 0, Op.adv 5 0]).2).Pairwise
      (fun a b => a.due ≤ b.due) :=
  C2_firing_order 0 1 (by decide) [Op.sched 1 1, Op.sched 0 0, Op.adv 5 0]

/-- C3 (counterexample to the claim as stated): after the limited advance
producing `c3after`, the callback due at 1 is pending and due at or before the
reported clock 5, and the target 2 is at or after its due time but before the
reported clock — yet `AdvanceTo` to target 2 returns count 0, invokes nothing,
and leaves the state unchanged.  A target before the reported clock is a
no-op, so "including targets before the currently reported clock" is false. -/
theorem C3_counterexample :
    (⟨1, 1⟩ : EventNode) ∈ allEvents c3after ∧
    (⟨1, 1⟩ : EventNode).due ≤ Now c3after ∧
    (⟨1, 1⟩ : EventNode).due ≤ 2 ∧ 2 < Now c3after ∧
    (AdvanceTo c3after 2 0).2.1 = 0 ∧ (AdvanceTo c3after 2 0).2.2 = [] ∧
    (AdvanceTo c3after 2 0).1 = c3after := by decide

/-- C3 (amended): a callback left enqueued with due time at or before the
reported clock fires on the next unlimited `AdvanceTo` whose target is at or
after the reported clock (such a target is automatically at or after the due
time; a target before the reported clock is a no-op). -/
theorem C3_amended_leftover_fires {c : Wheel} (hr : Reachable c) {e : EventNode}
    (hp : e ∈ allEvents c) (hd : e.due ≤ Now c) {target : Nat}
    (hle : Now c ≤ target) : e ∈ (AdvanceTo c target 0).2.2 := by
  obtain ⟨h1, _, _⟩ := advanceTo_unlimited_dueList hr hle
  refine h1.symm.subset (List.mem_filter.mpr ⟨hp, ?_⟩)
  simp only [decide_eq_true_eq]
  omega

theorem C3_amended_witness : (⟨1, 1⟩ : EventNode) ∈ (AdvanceTo c3after 5 0).2.2 :=
  C3_amended_leftover_fires c3after_reachable (by decide) (by decide) (by decide)

/-- C4: for every nonempty wheel, any target at or after the clock and any
limit, the reported clock after `AdvanceTo` equals the target — the assignment
is unconditional, even when a positive limit truncated execution before all
due callbacks were invoked. -/
theorem C4_clock_set_unconditionally {c : Wheel} (hne : c ≠ []) (target : Nat)
    (limit : Int) (hle : Now c ≤ target) :
    Now (AdvanceTo c target limit).1 = target := by
  cases c with
  | nil => exact absurd rfl hne
  | cons l rest => exact AdvanceTo_now_eq l rest target limit hle

theorem C4_witness : Now (AdvanceTo c3sched 5 1).1 = 5 :=
  C4_clock_set_unconditionally (by decide) 5 1 (by decide)

/-- C5: `ScheduleEventAt` fails with `ScheduledInPast` exactly when the due
time is strictly before the reported clock; on failure the state is unchanged
and nothing is invoked; on success (including a due time equal to the clock)
the count grows by one, the clock does not move, and exactly the new callback
is enqueued without being invoked. -/
theorem C5_schedule_contract {c : Wheel} (hr : Reachable c) (at_ id : Nat) :
    (ScheduleEventAt c at_ id = .error .ScheduledInPast ↔ at_ < Now c) ∧
    (ScheduleEventAt c at_ id = .error .ScheduledInPast →
      applyOp c (Op.sched at_ id) = (c, [])) ∧
    (∀ c', ScheduleEventAt c at_ id = .ok c' →
      Length c' = Length c + 1 ∧ Now c' = Now c ∧
      (allEvents c').Perm (⟨at_, id⟩ :: allEvents c)) := by
  have hinv := reachable_inv hr
  cases c with
  | nil => exact absurd hinv (by simp [Inv])
  | cons l rest =>
    refine ⟨ScheduleEventAt_error_iff l rest at_ id, ?_, ?_⟩
    · intro herr
      simp [applyOp, herr]
    · intro c' hok
      obtain ⟨hinv', hnow, hperm, _⟩ := ScheduleEventAt_ok_spec hinv hok
      have hchain := inv_chain hinv
      have hchain' := inv_chain hinv'
      refine ⟨?_, hnow, hperm⟩
      rw [length_eq_allEvents hchain', length_eq_allEvents hchain, hperm.length_eq,
        List.length_cons]

theorem C5_witness :
    Length c5res = Length c3sched + 1 ∧ Now c5res = Now c3sched ∧
    (allEvents c5res).Perm (⟨7, 9⟩ :: allEvents c3sched) :=
  (C5_schedule_contract c3sched_reachable 7 9).2.2 c5res rfl

/-- C6: the returned count is exactly the number of callbacks invoked; a
positive limit caps that count at the limit; a non-positive limit behaves
exactly as the unlimited call; and repeated calls with the same target and a
positive limit eventually invoke every callback due at or before the target. -/
theorem C6_limit_semantics {c : Wheel} (hr : Reachable c) {target : Nat}
    (hle : Now c ≤ target) (n : Int) :
    (AdvanceTo c target n).2.1 = (AdvanceTo c target n).2.2.length ∧
    (0 < n → ((AdvanceTo c target n).2.2.length : Int) ≤ n) ∧
    (n ≤ 0 → AdvanceTo c target n = AdvanceTo c target 0) ∧
    (0 < n → ∃ k, ((iterAdvanceTo target n k c).2).Perm (dueList c target) ∧
      dueList (iterAdvanceTo target n k c).1 target = []) := by
  have hinv := reachable_inv hr
  cases c with
  | nil => exact absurd hinv (by simp [Inv])
  | cons l rest =>
    have hle' : l.now ≤ target := hle
    obtain ⟨post, heq⟩ := AdvanceTo_spec hinv target n hle'
    obtain ⟨hec, _, _, _, _, hcap, _, _, _, _⟩ := post
    refine ⟨?_, ?_, ?_, ?_⟩
    · rw [heq]
      show (advanceLoop target (decide (0 < n)) n.toNat (target + 1) l rest 0).2.2.1 =
        (advanceLoop target (decide (0 < n)) n.toNat (target + 1) l rest 0).2.2.2.length
      exact hec.trans (Nat.zero_add _)
    · intro hn
      have hlim : decide (0 < n) = true := by simp [hn]
      have h1 := hcap hlim
      rw [heq]
      show ((advanceLoop target (decide (0 < n)) n.toNat
          (target + 1) l rest 0).2.2.2.length : Int) ≤ n
      omega
    · intro hnp
      have h1 : decide (0 < n) = decide ((0:Int) < 0) := by
        rw [decide_eq_false (not_lt.mpr hnp), decide_eq_false (lt_irrefl (0:Int))]
      have h2 : n.toNat = (0:Int).toNat := by
        rw [Int.toNat_of_nonpos hnp]
        rfl
      simp only [AdvanceTo]
      rw [h1, h2]
    · intro hn
      exact ⟨(dueList (l :: rest) target).length,
        iterAdvance_complete hn ((dueList (l :: rest) target).length) hr hle (le_refl _)⟩

theorem C6_witness :
    (AdvanceTo c3sched 5 2).2.1 = (AdvanceTo c3sched 5 2).2.2.length ∧
    ((0:Int) < 2 → ((AdvanceTo c3sched 5 2).2.2.length : Int) ≤ 2) ∧
    ((2:Int) ≤ 0 → AdvanceTo c3sched 5 2 = AdvanceTo c3sched 5 0) ∧
    ((0:Int) < 2 → ∃ k, ((iterAdvanceTo 5 2 k c3sched).2).Perm (dueList c3sched 5) ∧
      dueList (iterAdvanceTo 5 2 k c3sched).1 5 = []) :=
  C6_limit_semantics c3sched_reachable (by decide) 2

/-- C7: the reported clock is non-decreasing across every sequence of public
operations, and an `AdvanceTo` whose target is strictly before the clock
returns count 0, invokes nothing, and leaves the entire state unchanged. -/
theorem C7_monotonic_clock :
    (∀ (c : Wheel) (ops : List Op), Now c ≤ Now (runOps c ops).1) ∧
    (∀ (c : Wheel) (target : Nat) (limit : Int), target < Now c →
      AdvanceTo c target limit = (c, 0, [])) := by
  refine ⟨now_le_runOps, ?_⟩
  intro c target limit hlt
  cases c with
  | nil =>
    have h0 : target < 0 := hlt
    exact absurd h0 (Nat.not_lt_zero _)
  | cons l rest => exact AdvanceTo_backward hlt

/-- C8: during a cascade, every record pulled from the coarser next level's
active bucket is due within the finer level's newly shifted ring span, so the
bucket index computed when it is reinserted (through the same sorted-insertion
routine) is strictly below the ring length: the unchecked ring access never
goes out of bounds. -/
theorem C8_cascade_index_in_bounds {l n : Level} (hbs : 0 < l.bucketSize)
    (hlk : linked l n) (hwf : LevelWF n) :
    ∀ e ∈ n.ring.getD n.ringIdx [],
      l.start + ringLength * l.bucketSize ≤ e.due ∧
      e.due < l.start + ringLength * l.bucketSize + ringLength * l.bucketSize ∧
      (e.due - (l.start + ringLength * l.bucketSize)) / l.bucketSize < ringLength := by
  intro e he
  obtain ⟨hbsz, hstart⟩ := hlk
  have hr := levelWF_range hwf n.ringIdx e he
  have h1 := hr.1
  have h2 := hr.2
  rw [hstart] at h1
  rw [Nat.succ_mul, ← Nat.add_assoc, hstart, hbsz] at h2
  exact ⟨h1, h2, div_lt_of_upper hbs h2⟩

theorem C8_witness :
    (freshLevel 0 1).start + ringLength * (freshLevel 0 1).bucketSize ≤
      (⟨40, 7⟩ : EventNode).due ∧
    (⟨40, 7⟩ : EventNode).due < (freshLevel 0 1).start +
      ringLength * (freshLevel 0 1).bucketSize +
      ringLength * (freshLevel 0 1).bucketSize ∧
    ((⟨40, 7⟩ : EventNode).due - ((freshLevel 0 1).start +
      ringLength * (freshLevel 0 1).bucketSize)) / (freshLevel 0 1).bucketSize <
      ringLength :=
  @C8_cascade_index_in_bounds (freshLevel 0 1) c8next (by decide)
    ⟨by decide, by decide⟩ (by unfold LevelWF; decide) ⟨40, 7⟩ (by decide)

/-- C9: an unlimited `AdvanceTo` whose target covers every pending due time
drains the wheel: afterwards `IsEmpty` reports true and `Length` reports 0 —
exhausted coarser levels are released during cascading, so no empty attached
level makes `IsEmpty` report false. -/
theorem C9_drained_wheel_empty {c : Wheel} (hr : Reachable c) {target : Nat}
    (hle : Now c ≤ target) (hall : ∀ e ∈ allEvents c, e.due ≤ target) :
    IsEmpty (AdvanceTo c target 0).1 = true ∧ Length (AdvanceTo c target 0).1 = 0 := by
  obtain ⟨_, hempty, hperm⟩ := advanceTo_unlimited_dueList hr hle
  have hr' : Reachable (AdvanceTo c target 0).1 := Reachable.adv target 0 hr
  have hne' : (AdvanceTo c target 0).1 ≠ [] := reachable_ne_nil hr'
  have hchain' := inv_chain (reachable_inv hr')
  have hnil : allEvents (AdvanceTo c target 0).1 = [] := by
    rcases hx : allEvents (AdvanceTo c target 0).1 with _ | ⟨x, xs⟩
    · rfl
    · exfalso
      have hxmem : x ∈ allEvents (AdvanceTo c target 0).1 := by rw [hx]; simp
      have hxc : x ∈ allEvents c := hperm.symm.subset (List.mem_append.mpr (Or.inr hxmem))
      have hxdue : x ∈ dueList (AdvanceTo c target 0).1 target :=
        List.mem_filter.mpr ⟨hxmem, by simpa using hall x hxc⟩
      rw [hempty] at hxdue
      simp at hxdue
  refine ⟨(isEmpty_iff_allEvents hchain' hne').mpr hnil, ?_⟩
  rw [length_eq_allEvents hchain', hnil]
  rfl

theorem C9_witness :
    IsEmpty (AdvanceTo c3sched 5 0).1 = true ∧ Length (AdvanceTo c3sched 5 0).1 = 0 :=
  C9_drained_wheel_empty c3sched_reachable (by decide) (by decide)

/-- C10: in every reachable state, every level keeps all buckets before the
active index empty and its clock at or after the active bucket's start;
consequently `Length`, which counts only from the active index onward,
accounts for every pending callback, and `IsEmpty` holds exactly when none is
pending. -/
theorem C10_reachable_invariant {c : Wheel} (hr : Reachable c) :
    (∀ l ∈ c, (∀ i < l.ringIdx, l.ring.getD i [] = []) ∧
      l.start + l.ringIdx * l.bucketSize ≤ l.now) ∧
    Length c = (allEvents c).length ∧
    (IsEmpty c = true ↔ allEvents c = []) := by
  have hchain := inv_chain (reachable_inv hr)
  refine ⟨?_, length_eq_allEvents hchain, isEmpty_iff_allEvents hchain (reachable_ne_nil hr)⟩
  intro l hl
  have hwf := chainInv_mem_wf hchain l hl
  exact ⟨hwf.2.2.2.2.1, hwf.2.2.2.2.2⟩

theorem C10_witness :
    (∀ l ∈ c3after, (∀ i < l.ringIdx, l.ring.getD i [] = []) ∧
      l.start + l.ringIdx * l.bucketSize ≤ l.now) ∧
    Length c3after = (allEvents c3after).length ∧
    (IsEmpty c3after = true ↔ allEvents c3after = []) :=
  C10_reachable_invariant c3after_reachable

end GoTimerWheel
